import Mathlib

/-
Verification of the open-addressing hash table from
src/lab_05/src/modules/hash_table_open_addressing.py (class
OpenAddressingHashTable) together with the hash functions from
src/lab_05/src/modules/hash_functions.py.

Modelling conventions (shallow embedding):

* Python's parallel arrays `_keys` / `_values` are merged into a single list
  of three-state slots.  `_keys[i] is None` becomes `Slot.empty`,
  `_keys[i] is _DELETED` becomes `Slot.tomb` (the code always sets the
  corresponding value to `None`, which the code never reads, so merging
  loses nothing), and a real key becomes `Slot.occ k v`.
* Python values are arbitrary objects, including `None`; a stored value is
  modelled as `Option V` (`none` is Python `None`).  `get` returns a single
  Python object that is either `None` (absent, or an empty slot was hit) or
  the stored value, hence its result type is `Option V` as well.
* The probe generator `_probe_sequence` is an infinite lazy generator; the
  loops in `insert` / `get` / `remove` therefore need not terminate.  Since
  probe indices repeat with period dividing `capacity`
  (theorem `stopAt_of_none` below), a loop terminates iff its exit
  condition holds within the first `capacity` probe steps.  Each operation
  is modelled as a total function into `Res _`, where `Res.hang` marks a
  Python loop that never finishes (and, for the fuelled `insertF`,
  exhaustion of the recursion fuel for the insert/rehash recursion).
* `_size` is a Python int that the code decrements, so it is modelled as
  `Int`.
* The float comparison `self._size / self._capacity >= threshold` is
  modelled exactly over the rationals, with the threshold kept as a
  numerator/denominator pair (`thNum / thDen`).  At the capacities the
  claims exercise, the gap between `size / capacity` and thresholds such as
  0.6 is many orders of magnitude larger than double rounding error, so the
  exact comparison agrees with the float one.
* Python's built-in `hash` (used by the constructor both as the default
  primary hash and inside the default second-hash lambda
  `lambda s: 1 + (hash(s) % (self._capacity - 1))`) is the field `pyHash`.
  The default lambda closes over `self`, so it reads the capacity current
  at call time; accordingly the model stores only the fact that no
  explicit second hash was supplied (`secondF = none`) and recomputes the
  step from the current capacity at probe time.
-/

set_option autoImplicit false
set_option linter.unusedSectionVars false
set_option linter.unusedVariables false
set_option maxRecDepth 8192

namespace OpenAddr

/-- Probing mode: `mode in ("linear", "double")`. -/
inductive Mode where
  | linear
  | double
deriving DecidableEq

/-- One slot of the table: `_keys[i]` is `None`, `_DELETED`, or a key
(with the parallel `_values[i]` merged in). -/
inductive Slot (K V : Type) where
  | empty
  | tomb
  | occ (k : K) (v : Option V)
deriving DecidableEq

/-- Result of running a Python loop that may never terminate: `hang` marks
divergence (an infinite probe walk, or exhausted recursion fuel). -/
inductive Res (α : Type) where
  | ok (a : α)
  | hang
deriving DecidableEq

/-- Sequencing of possibly-diverging computations. -/
def Res.bind {α β : Type} : Res α → (α → Res β) → Res β
  | .hang, _ => .hang
  | .ok a, f => f a

/-- True exactly on `ok` results. -/
def Res.isOk {α : Type} : Res α → Bool
  | .ok _ => true
  | .hang => false

/-- State of an `OpenAddressingHashTable`. -/
structure Table (K V : Type) where
  capacity : Nat
  slots : List (Slot K V)
  size : Int
  collisions : Nat
  mode : Mode
  hashF : K → Nat
  secondF : Option (K → Nat)
  pyHash : K → Nat
  thNum : Nat
  thDen : Nat

/-- The constructor `__init__`: capacity clamped to at least 3, arrays all
empty, `hash_func or hash`, the second hash kept only if supplied. -/
def new (K V : Type) (cap : Nat) (hf shf : Option (K → Nat)) (mode : Mode)
    (thN thD : Nat) (ph : K → Nat) : Table K V :=
  { capacity := max 3 cap
    slots := List.replicate (max 3 cap) Slot.empty
    size := 0
    collisions := 0
    mode := mode
    hashF := hf.getD ph
    secondF := shf
    pyHash := ph
    thNum := thN
    thDen := thD }

variable {K V : Type} [DecidableEq K]

/-- Basic well-formedness: the slot array has length `capacity` and the
capacity respects the constructor's clamp to at least 3. -/
def Wf (t : Table K V) : Prop :=
  t.slots.length = t.capacity ∧ 3 ≤ t.capacity

/-- Slot read `self._keys[idx]` / `self._values[idx]`; in-bounds under
`Wf`, the default is irrelevant. -/
def slotAt (t : Table K V) (x : Nat) : Slot K V :=
  t.slots.getD x Slot.empty

/-- The double-hashing step: `step = self._second_hash(key) % self._capacity`,
with `step = 0` replaced by 1; the default second hash is
`1 + (hash(s) % (self._capacity - 1))` built from the *builtin* hash. -/
def stepOf (t : Table K V) (k : K) : Nat :=
  let raw : Nat :=
    match t.secondF with
    | some f => f k
    | none => 1 + t.pyHash k % (t.capacity - 1)
  let s := raw % t.capacity
  if s = 0 then 1 else s

/-- The i-th index yielded by `_probe_sequence(key)`. -/
def probeIdx (t : Table K V) (k : K) (i : Nat) : Nat :=
  let h1 := t.hashF k % t.capacity
  match t.mode with
  | .linear => (h1 + i) % t.capacity
  | .double => (h1 + i * stepOf t k) % t.capacity

/-- Exit condition shared by the probe loops of `insert`, `get` and
`remove`: the walk stops at step `i` iff the probed slot is empty or holds
the key itself (tombstones and other keys are walked past). -/
def stopAt (t : Table K V) (k : K) (i : Nat) : Bool :=
  match slotAt t (probeIdx t k i) with
  | .empty => true
  | .tomb => false
  | .occ q _ => decide (q = k)

/-- Step `j` of the walk hits a tombstone (`self._keys[idx] is _DELETED`). -/
def tombAtStep (t : Table K V) (k : K) (j : Nat) : Bool :=
  match slotAt t (probeIdx t k j) with
  | .tomb => true
  | _ => false

/-- Step `j` of the walk hits a slot occupied by a different key (the
`collisions += 1` branch of `insert`). -/
def occOtherAtStep (t : Table K V) (k : K) (j : Nat) : Bool :=
  match slotAt t (probeIdx t k j) with
  | .occ q _ => decide (q ≠ k)
  | _ => false

/-- First index `i`, `start ≤ i < start + n`, satisfying `p`, scanning
upward. -/
def scanFirst (p : Nat → Bool) : Nat → Nat → Option Nat
  | _start, 0 => none
  | start, n + 1 => if p start then some start else scanFirst p (start + 1) n

/-- The step at which the probe walk for `k` first exits, if it does so
within one full pass over the table (otherwise the Python loop runs
forever: see `stopAt_of_none`). -/
def stopIdx (t : Table K V) (k : K) : Option Nat :=
  scanFirst (stopAt t k) 0 t.capacity

/-- Number of different-key occupied slots the walk for `k` steps past
before step `n`: each adds 1 to `collisions` in `insert`. -/
def occOtherCount (t : Table K V) (k : K) (n : Nat) : Nat :=
  (List.range n).countP (occOtherAtStep t k)

/-- The load-factor test `self.load_factor() >= self._load_factor_threshold`
guarding `insert`, over exact rationals. -/
def loadTrigger (t : Table K V) : Bool :=
  decide ((t.thNum * t.capacity : Int) ≤ t.size * t.thDen)

/-- The probe-walk part of `insert` (everything after the load-factor
check): walk to the first empty or matching slot, updating in place on a
match, otherwise writing at the first tombstone passed (if any) or at the
empty slot, maintaining `_size` and `collisions` exactly as the code does. -/
def insertWalk (t : Table K V) (k : K) (v : Option V) : Res (Table K V) :=
  match stopIdx t k with
  | none => .hang
  | some i =>
    let x := probeIdx t k i
    let passed := occOtherCount t k i
    match slotAt t x with
    | .occ _ _ =>
        .ok { t with slots := t.slots.set x (Slot.occ k v)
                     collisions := t.collisions + passed }
    | _ =>
        let target :=
          match scanFirst (tombAtStep t k) 0 i with
          | some j => probeIdx t k j
          | none => x
        .ok { t with slots := t.slots.set target (Slot.occ k v)
                     size := t.size + 1
                     collisions := t.collisions + passed +
                       (if target = x then 0 else 1) }

/-- `_rehash`, first phase: collect the `(key, value)` pairs of occupied
slots in array order (`zip(self._keys, self._values)` filtered to real
keys). -/
def collectOcc (t : Table K V) : List (K × Option V) :=
  (List.range t.capacity).filterMap fun x =>
    match slotAt t x with
    | .occ k v => some (k, v)
    | _ => none

/-- `_rehash`, second phase before reinsertion: clamp the capacity, fresh
all-empty arrays, `size = 0`; `collisions` is deliberately kept. -/
def resetTable (t : Table K V) (nc : Nat) : Table K V :=
  { t with capacity := max 3 nc
           slots := List.replicate (max 3 nc) Slot.empty
           size := 0 }

/-- Full `insert`, including the load-factor-triggered `_rehash`.  The
fuel bounds the depth of the mutual insert/rehash recursion (which Python
does not bound: with a degenerate threshold it recurses forever); all
claims hold for every fuel. -/
def insertF : Nat → Table K V → K → Option V → Res (Table K V)
  | 0, _t, _k, _v => .hang
  | Nat.succ fuel, t, k, v =>
    let pre : Res (Table K V) :=
      if loadTrigger t then
        (collectOcc t).foldl
          (fun acc p => Res.bind acc fun u => insertF fuel u p.1 p.2)
          (.ok (resetTable t (2 * t.capacity + 1)))
      else .ok t
    Res.bind pre fun u => insertWalk u k v

/-- Sequential insertion of a list of pairs (the reinsertion loop of
`_rehash`), propagating divergence. -/
def insertAll (fuel : Nat) : Table K V → List (K × Option V) → Res (Table K V)
  | t, [] => .ok t
  | t, (k, v) :: rest =>
    match insertF fuel t k v with
    | .hang => .hang
    | .ok u => insertAll fuel u rest

/-- `_rehash(new_capacity)`: reset, then re-insert every collected pair
through the normal `insert` path. -/
def rehashF (fuel : Nat) (t : Table K V) (nc : Nat) : Res (Table K V) :=
  insertAll fuel (resetTable t nc) (collectOcc t)

/-- `get(key)`: walk the probe sequence; `None` on an empty slot, skip
tombstones, the stored value on a key match.  The trailing `return None`
of the Python code is dead: if the walk never exits, the loop runs
forever (`hang`). -/
def get (t : Table K V) (k : K) : Res (Option V) :=
  match stopIdx t k with
  | none => .hang
  | some i =>
    match slotAt t (probeIdx t k i) with
    | .occ _ v => .ok v
    | _ => .ok none

/-- `remove(key)`: walk as in `get`; on a match, tombstone the slot
(the code also clears the value cell, which the merged slot drops),
decrement `_size`, return `True`; on an empty slot return `False`. -/
def remove (t : Table K V) (k : K) : Res (Table K V × Bool) :=
  match stopIdx t k with
  | none => .hang
  | some i =>
    let x := probeIdx t k i
    match slotAt t x with
    | .occ _ _ =>
        .ok ({ t with slots := t.slots.set x Slot.tomb
                      size := t.size - 1 }, true)
    | _ => .ok (t, false)

/-- `contains(key)`: `self.get(key) is not None`. -/
def contains (t : Table K V) (k : K) : Res Bool :=
  match get t k with
  | .hang => .hang
  | .ok v => .ok v.isSome

/-- Slot occupancy test. -/
def isOcc : Slot K V → Bool
  | Slot.occ _ _ => true
  | _ => false

/-- Number of occupied slots (what the spec calls the live entries). -/
def occCount (t : Table K V) : Nat :=
  t.slots.countP isOcc

/-- `simple_hash` from hash_functions.py: sum of character codes, masked
with `0x7FFFFFFF` (`= % 2^31`). -/
def simple_hash (s : String) : Nat :=
  (s.data.foldl (fun h c => h + c.toNat) 0) % 2147483648

/-- Unwrap an `ok` result, with a default for `hang` (used only to name
intermediate states of concrete runs; every run below is shown to be `ok`). -/
def okOr {α : Type} (d : α) : Res α → α
  | .ok a => a
  | .hang => d

/-- Two tables agreeing on everything probing depends on except the
capacity (rehash changes the capacity but none of these). -/
def SameFns (u t : Table K V) : Prop :=
  u.hashF = t.hashF ∧ u.mode = t.mode ∧ u.secondF = t.secondF ∧
    u.pyHash = t.pyHash ∧ u.thNum = t.thNum ∧ u.thDen = t.thDen

/-- The walk for `k` exits at a slot holding `(k, v)` — the key is
present and retrievable. -/
def FoundAt (t : Table K V) (k : K) (v : Option V) : Prop :=
  ∃ j, stopIdx t k = some j ∧
    slotAt t (probeIdx t k j) = Slot.occ k v

/-- No slot holds the key `k`. -/
def FreshIn (t : Table K V) (k : K) : Prop :=
  ∀ x w, slotAt t x ≠ Slot.occ k w

/-- Each key occupies at most one slot. -/
def Uniq (t : Table K V) : Prop :=
  ∀ (x y : Nat) (k : K) (vx vy : Option V), slotAt t x = Slot.occ k vx →
    slotAt t y = Slot.occ k vy → x = y

/-- Every occupied pair is reachable by its own probe walk. -/
def AllFound (t : Table K V) : Prop :=
  ∀ (x : Nat) (k : K) (v : Option V), slotAt t x = Slot.occ k v →
    FoundAt t k v

/-- The reachability invariant of a table: well-formed arrays, no
duplicate keys, every occupied pair reachable by its walk, and size
equal to the occupied count. -/
def Inv (t : Table K V) : Prop :=
  Wf t ∧ Uniq t ∧ AllFound t ∧ t.size = (occCount t : Int)

/-- Two tables hold exactly the same key-value pairs. -/
def SameMap (t1 t2 : Table K V) : Prop :=
  ∀ (k : K) (v : Option V),
    (∃ x, slotAt t1 x = Slot.occ k v) ↔ (∃ y, slotAt t2 y = Slot.occ k v)

/-- Bisimulation relation between two tables that differ only in probing
strategy: same capacity, size, threshold, primary hash and contents,
both satisfying the invariant.  The slot layout, the collisions
counters, the modes and the second hash functions may differ. -/
def Bisim (t1 t2 : Table K V) : Prop :=
  Inv t1 ∧ Inv t2 ∧ t1.capacity = t2.capacity ∧ t1.size = t2.size ∧
    t1.thNum = t2.thNum ∧ t1.thDen = t2.thDen ∧ t1.hashF = t2.hashF ∧
    SameMap t1 t2

/-! #### Concrete states used by the claim theorems -/

/-- C1 scenario hash: keys 0,1,2,3 hash to 0,1,2,0 at capacity 3. -/
def hashC1 : Nat → Nat := fun k => k % 3

def c1t0 : Table Nat Nat := new Nat Nat 3 (some hashC1) none Mode.linear 3 5 hashC1

def c1t1 : Table Nat Nat := okOr c1t0 (insertF 1 c1t0 0 (some 100))

def c1t2 : Table Nat Nat := okOr c1t1 (Res.bind (remove c1t1 0) fun p => .ok p.1)

def c1t3 : Table Nat Nat := okOr c1t2 (insertF 1 c1t2 1 (some 101))

def c1t4 : Table Nat Nat := okOr c1t3 (insertF 1 c1t3 2 (some 102))

def c2t : Table Nat Nat := new Nat Nat 5 (some id) none Mode.linear 3 5 id

def c2t1 : Table Nat Nat := okOr c2t (insertF 1 c2t 4 (some 7))

def c3base : Table Nat Nat := new Nat Nat 101 (some id) none Mode.linear 3 5 id

def c3keys61 : List (Nat × Option Nat) := (List.range 61).map fun k => (k, some k)

def c3keys62 : List (Nat × Option Nat) := (List.range 62).map fun k => (k, some k)

def c3r61 : Res (Table Nat Nat) := insertAll 2 c3base c3keys61

def c3t61 : Table Nat Nat := okOr c3base c3r61

def c3r62 : Res (Table Nat Nat) := insertAll 2 c3base c3keys62

def c3t62 : Table Nat Nat := okOr c3base c3r62

def c4t0 : Table Nat Nat := new Nat Nat 7 (some id) none Mode.linear 3 5 id

def c4t1 : Table Nat Nat :=
  okOr c4t0 (insertAll 1 c4t0 ((List.range 4).map fun k => (k, some k)))

def c4r : Res (Table Nat Nat) := rehashF 3 c4t1 3

def c4t2 : Table Nat Nat := okOr c4t1 c4r

def c5t : Table Nat Nat :=
  new Nat Nat 11 (some fun _ => 0) none Mode.double 3 5 id

def c6hash : Nat → Nat := fun _ => 0

def c6t0 : Table Nat Nat := new Nat Nat 3 (some c6hash) none Mode.linear 3 5 c6hash

def c6t1 : Table Nat Nat := okOr c6t0 (insertF 1 c6t0 0 (some 10))

def c6t2 : Table Nat Nat := okOr c6t1 (Res.bind (remove c6t1 0) fun p => .ok p.1)

def c6t3 : Table Nat Nat := okOr c6t2 (insertF 1 c6t2 1 (some 11))

def c6wt : Table Nat Nat := new Nat Nat 5 (some id) none Mode.linear 3 5 id

def c6wt1 : Table Nat Nat := okOr c6wt (insertWalk c6wt 2 (some 1))

def c7t0 : Table String Nat :=
  new String Nat 7 (some simple_hash) none Mode.linear 3 5 simple_hash

def c7t1 : Table String Nat := okOr c7t0 (insertF 1 c7t0 "a" (some 1))

def c7t2 : Table String Nat := okOr c7t1 (insertF 1 c7t1 "h" (some 2))

def c7t3 : Table String Nat :=
  okOr c7t2 (Res.bind (remove c7t2 "a") fun p => .ok p.1)

/-- C8 scenario hash: keys 0 and 2 hash to 0, key 1 hashes to 2. -/
def hashC8 : Nat → Nat := fun k => if k = 1 then 2 else 0

def c8lin : Table Nat Nat := new Nat Nat 4 (some hashC8) none Mode.linear 3 5 id

def c8dbl : Table Nat Nat :=
  new Nat Nat 4 (some hashC8) (some fun _ => 2) Mode.double 3 5 id

def c8lin2 : Table Nat Nat :=
  okOr c8lin (insertAll 1 c8lin [(0, some 10), (1, some 11)])

def c8dbl2 : Table Nat Nat :=
  okOr c8dbl (insertAll 1 c8dbl [(0, some 10), (1, some 11)])

def c8w1 : Table Nat Nat := new Nat Nat 4 (some hashC8) none Mode.linear 3 5 id

def c8w2 : Table Nat Nat :=
  new Nat Nat 4 (some hashC8) (some fun _ => 2) Mode.double 3 5 id

def c8w1a : Table Nat Nat := okOr c8w1 (insertF 1 c8w1 0 (some 10))

def c8w2a : Table Nat Nat := okOr c8w2 (insertF 1 c8w2 0 (some 10))

def c9base : Table Nat Nat := new Nat Nat 3 (some id) none Mode.linear 3 5 id

def c9t : Table Nat Nat := okOr c9base (insertF 1 c9base 0 (some 5))

def c10t : Table Nat Nat := new Nat Nat 5 (some id) none Mode.linear 3 5 id

def c10t1 : Table Nat Nat := okOr c10t (insertF 1 c10t 2 none)

/-- Two tables with the same configuration fields (everything except the
slot array and the counters) probe identically. -/
def SameCfg (u t : Table K V) : Prop :=
  u.capacity = t.capacity ∧ u.hashF = t.hashF ∧ u.mode = t.mode ∧
    u.secondF = t.secondF ∧ u.pyHash = t.pyHash ∧
    u.thNum = t.thNum ∧ u.thDen = t.thDen

/-- The size bookkeeping invariant: `_size` equals the number of occupied
slots. -/
def SizeInv (t : Table K V) : Prop :=
  t.size = (occCount t : Int)

/-- States reachable from a freshly constructed table by insert, remove
and rehash. -/
inductive Reachable : Table K V → Prop where
  | base (cap : Nat) (hf shf : Option (K → Nat)) (mode : Mode)
      (thN thD : Nat) (ph : K → Nat) :
      Reachable (new K V cap hf shf mode thN thD ph)
  | ins {t t' : Table K V} {fuel : Nat} {k : K} {v : Option V} :
      Reachable t → insertF fuel t k v = .ok t' → Reachable t'
  | rem {t t' : Table K V} {k : K} {b : Bool} :
      Reachable t → remove t k = .ok (t', b) → Reachable t'
  | reh {t t' : Table K V} {fuel nc : Nat} :
      Reachable t → rehashF fuel t nc = .ok t' → Reachable t'

def c4re : Res (Table Nat Nat) := rehashF 2 c4t1 101

/-! ### Generic facts about the scanning combinator and list updates -/

theorem scanFirst_eq_some {p : Nat → Bool} :
    ∀ {n start j : Nat}, scanFirst p start n = some j →
      p j = true ∧ start ≤ j ∧ j < start + n ∧
        ∀ m, start ≤ m → m < j → p m = false := by
  intro n
  induction n with
  | zero => intro start j h; simp [scanFirst] at h
  | succ n ih =>
    intro start j h
    by_cases hp : p start
    · rw [scanFirst, if_pos hp] at h
      cases h
      exact ⟨hp, Nat.le_refl _, by omega, fun m h1 h2 => absurd h1 (by omega)⟩
    · rw [scanFirst, if_neg hp] at h
      obtain ⟨hj, h1, h2, hmin⟩ := ih h
      refine ⟨hj, by omega, by omega, fun m hm1 hm2 => ?_⟩
      rcases Nat.eq_or_lt_of_le hm1 with he | hl
      · subst he; exact Bool.eq_false_iff.mpr hp
      · exact hmin m hl hm2

theorem scanFirst_eq_none {p : Nat → Bool} :
    ∀ {n start : Nat}, scanFirst p start n = none →
      ∀ j, start ≤ j → j < start + n → p j = false := by
  intro n
  induction n with
  | zero => intro start _ j h1 h2; omega
  | succ n ih =>
    intro start h j h1 h2
    by_cases hp : p start
    · rw [scanFirst, if_pos hp] at h; cases h
    · rw [scanFirst, if_neg hp] at h
      rcases Nat.eq_or_lt_of_le h1 with he | hl
      · subst he; exact Bool.eq_false_iff.mpr hp
      · exact ih h j hl (by omega)

theorem scanFirst_eq_some_of {p : Nat → Bool} :
    ∀ {n start i : Nat}, start ≤ i → i < start + n → p i = true →
      (∀ m, start ≤ m → m < i → p m = false) → scanFirst p start n = some i := by
  intro n
  induction n with
  | zero => intro start i h1 h2; omega
  | succ n ih =>
    intro start i h1 h2 hi hmin
    rcases Nat.eq_or_lt_of_le h1 with he | hl
    · subst he; rw [scanFirst, if_pos hi]
    · have hs : p start = false := hmin start (Nat.le_refl _) hl
      rw [scanFirst, if_neg (by simp [hs])]
      exact ih hl (by omega) hi fun m hm1 hm2 => hmin m (by omega) hm2

theorem getD_set_self {α : Type} :
    ∀ (l : List α) (i : Nat) (a d : α), i < l.length →
      (l.set i a).getD i d = a := by
  intro l
  induction l with
  | nil => intro i a d h; simp at h
  | cons b tl ih =>
    intro i a d h
    cases i with
    | zero => rfl
    | succ n =>
      have := ih n a d (by simpa using h)
      simpa [List.set] using this

theorem getD_set_ne {α : Type} :
    ∀ (l : List α) (i j : Nat) (a d : α), i ≠ j →
      (l.set i a).getD j d = l.getD j d := by
  intro l
  induction l with
  | nil => intro i j a d _; simp [List.set]
  | cons b tl ih =>
    intro i j a d hij
    cases i with
    | zero =>
      cases j with
      | zero => exact absurd rfl hij
      | succ m => rfl
    | succ n =>
      cases j with
      | zero => rfl
      | succ m =>
        have := ih n m a d (by omega)
        simpa [List.set] using this

theorem countP_set {α : Type} (p : α → Bool) :
    ∀ (l : List α) (i : Nat) (a d : α), i < l.length →
      (l.set i a).countP p + (if p (l.getD i d) then 1 else 0) =
        l.countP p + (if p a then 1 else 0) := by
  intro l
  induction l with
  | nil => intro i a d h; simp at h
  | cons b tl ih =>
    intro i a d h
    cases i with
    | zero => simp [List.countP_cons]; omega
    | succ n =>
      have := ih n a d (by simpa using h)
      simp only [List.set, List.countP_cons, List.getD_cons_succ]
      omega

theorem getD_replicate {α : Type} :
    ∀ (n i : Nat) (a d : α), i < n → (List.replicate n a).getD i d = a := by
  intro n
  induction n with
  | zero => intro i a d h; omega
  | succ n ih =>
    intro i a d h
    cases i with
    | zero => rfl
    | succ m => simpa [List.replicate] using ih m a d (by omega)

/-! ### Probe-sequence periodicity: the walk exits iff it exits within one
full pass, so `Res.hang` faithfully marks a Python loop that never
terminates -/

theorem probeIdx_mod (t : Table K V) (k : K) (i : Nat) :
    probeIdx t k i = probeIdx t k (i % t.capacity) := by
  unfold probeIdx
  cases t.mode with
  | linear =>
    simp only
    exact Nat.ModEq.add_left _ (Nat.mod_modEq i t.capacity).symm
  | double =>
    simp only
    exact Nat.ModEq.add_left _ ((Nat.mod_modEq i t.capacity).symm.mul_right _)

theorem stopAt_mod (t : Table K V) (k : K) (i : Nat) :
    stopAt t k i = stopAt t k (i % t.capacity) := by
  unfold stopAt
  rw [probeIdx_mod]

/-- If the walk for `k` finds no exit within `capacity` steps, it never
finds one: the Python loops of `get` / `insert` / `remove` run forever. -/
theorem stopAt_of_none {t : Table K V} {k : K} (hc : 0 < t.capacity)
    (h : stopIdx t k = none) : ∀ i, stopAt t k i = false := by
  intro i
  rw [stopAt_mod]
  exact scanFirst_eq_none h _ (Nat.zero_le _)
    (by simpa using Nat.mod_lt i hc)

theorem stopIdx_eq_some {t : Table K V} {k : K} {i : Nat}
    (h : stopIdx t k = some i) :
    stopAt t k i = true ∧ i < t.capacity ∧ ∀ j, j < i → stopAt t k j = false := by
  obtain ⟨h1, _, h3, h4⟩ := scanFirst_eq_some h
  exact ⟨h1, by omega, fun j hj => h4 j (Nat.zero_le _) hj⟩

theorem stopIdx_eq_some_of {t : Table K V} {k : K} {i : Nat}
    (hi : i < t.capacity) (hstop : stopAt t k i = true)
    (hmin : ∀ j, j < i → stopAt t k j = false) : stopIdx t k = some i :=
  scanFirst_eq_some_of (Nat.zero_le _) (by omega) hstop
    fun m _ hm => hmin m hm

theorem probeIdx_lt (t : Table K V) (k : K) (i : Nat) (hc : 0 < t.capacity) :
    probeIdx t k i < t.capacity := by
  unfold probeIdx
  cases t.mode <;> exact Nat.mod_lt _ hc

theorem probeIdx_congr {u t : Table K V} (h : SameCfg u t) (k : K) (i : Nat) :
    probeIdx u k i = probeIdx t k i := by
  obtain ⟨h1, h2, h3, h4, h5, _, _⟩ := h
  unfold probeIdx stepOf
  rw [h1, h2, h3, h4, h5]

/-! ### Reading the walk predicates off the slot contents -/

theorem stopAt_true_elim {t : Table K V} {k : K} {i : Nat}
    (h : stopAt t k i = true) :
    slotAt t (probeIdx t k i) = Slot.empty ∨
      ∃ v, slotAt t (probeIdx t k i) = Slot.occ k v := by
  unfold stopAt at h
  cases hs : slotAt t (probeIdx t k i) with
  | empty => exact Or.inl rfl
  | tomb => rw [hs] at h; cases h
  | occ q w =>
    rw [hs] at h
    have hq : q = k := by simpa using h
    exact Or.inr ⟨w, by rw [hq]⟩

theorem stopAt_false_elim {t : Table K V} {k : K} {i : Nat}
    (h : stopAt t k i = false) :
    slotAt t (probeIdx t k i) = Slot.tomb ∨
      ∃ q w, slotAt t (probeIdx t k i) = Slot.occ q w ∧ q ≠ k := by
  unfold stopAt at h
  cases hs : slotAt t (probeIdx t k i) with
  | empty => rw [hs] at h; cases h
  | tomb => exact Or.inl rfl
  | occ q w =>
    rw [hs] at h
    exact Or.inr ⟨q, w, rfl, by simpa using h⟩

theorem stopAt_true_of_empty {t : Table K V} {k : K} {i : Nat}
    (hs : slotAt t (probeIdx t k i) = Slot.empty) : stopAt t k i = true := by
  unfold stopAt
  rw [hs]

theorem stopAt_true_of_self {t : Table K V} {k : K} {i : Nat} {v : Option V}
    (hs : slotAt t (probeIdx t k i) = Slot.occ k v) : stopAt t k i = true := by
  unfold stopAt
  rw [hs]
  simp

theorem stopAt_false_of_tomb {t : Table K V} {k : K} {i : Nat}
    (hs : slotAt t (probeIdx t k i) = Slot.tomb) : stopAt t k i = false := by
  unfold stopAt
  rw [hs]

theorem stopAt_false_of_other {t : Table K V} {k q : K} {i : Nat} {w : Option V}
    (hq : q ≠ k) (hs : slotAt t (probeIdx t k i) = Slot.occ q w) :
    stopAt t k i = false := by
  unfold stopAt
  rw [hs]
  simpa using hq

theorem tombAtStep_true_elim {t : Table K V} {k : K} {j : Nat}
    (h : tombAtStep t k j = true) : slotAt t (probeIdx t k j) = Slot.tomb := by
  unfold tombAtStep at h
  cases hs : slotAt t (probeIdx t k j) with
  | tomb => rfl
  | empty => rw [hs] at h; cases h
  | occ q w => rw [hs] at h; cases h

theorem tombAtStep_false_elim {t : Table K V} {k : K} {j : Nat}
    (h : tombAtStep t k j = false) : slotAt t (probeIdx t k j) ≠ Slot.tomb := by
  intro hs
  unfold tombAtStep at h
  rw [hs] at h
  cases h

theorem slotAt_of_set {t t' : Table K V} {tgt : Nat} {s : Slot K V}
    (hs : t'.slots = t.slots.set tgt s) (hlen : tgt < t.slots.length) :
    slotAt t' tgt = s ∧ ∀ y, y ≠ tgt → slotAt t' y = slotAt t y := by
  constructor
  · unfold slotAt
    rw [hs]
    exact getD_set_self _ _ _ _ hlen
  · intro y hy
    unfold slotAt
    rw [hs]
    exact getD_set_ne _ _ _ _ _ (Ne.symm hy)

theorem stopAt_of_untouched {t t' : Table K V} {k : K} {m : Nat}
    (hcfg : SameCfg t' t)
    (heq : slotAt t' (probeIdx t k m) = slotAt t (probeIdx t k m)) :
    stopAt t' k m = stopAt t k m := by
  unfold stopAt
  rw [probeIdx_congr hcfg, heq]

/-! ### The probe-walk part of insert: full characterisation -/

theorem stop_after_write {t t' : Table K V} {k : K} {v : Option V}
    {tgt j : Nat}
    (hWf : Wf t) (hcfg : SameCfg t' t)
    (hset : t'.slots = t.slots.set tgt (Slot.occ k v))
    (htgt : tgt < t.capacity)
    (hj : probeIdx t k j = tgt) (hjcap : j < t.capacity)
    (hbefore : ∀ m, m < j → probeIdx t k m ≠ tgt ∧ stopAt t k m = false) :
    stopIdx t' k = some j ∧ probeIdx t' k j = tgt := by
  have hlen : tgt < t.slots.length := by rw [hWf.1]; exact htgt
  obtain ⟨hsetEq, hsetNe⟩ := slotAt_of_set hset hlen
  have hpe : ∀ m, probeIdx t' k m = probeIdx t k m := probeIdx_congr hcfg k
  constructor
  · apply stopIdx_eq_some_of
    · rw [hcfg.1]; exact hjcap
    · apply stopAt_true_of_self (v := v)
      rw [hpe j, hj]
      exact hsetEq
    · intro m hm
      obtain ⟨hne, hfalse⟩ := hbefore m hm
      rw [stopAt_of_untouched hcfg (hsetNe _ hne)]
      exact hfalse
  · rw [hpe j, hj]

theorem insertWalk_spec {t t' : Table K V} {k : K} {v : Option V}
    (hWf : Wf t) (h : insertWalk t k v = .ok t') :
    ∃ tgt j,
      tgt < t.capacity ∧
      t'.slots = t.slots.set tgt (Slot.occ k v) ∧
      SameCfg t' t ∧
      t'.collisions ≥ t.collisions ∧
      stopIdx t' k = some j ∧ probeIdx t' k j = tgt ∧
      (((∃ w, slotAt t tgt = Slot.occ k w) ∧ t'.size = t.size) ∨
        ((slotAt t tgt = Slot.empty ∨ slotAt t tgt = Slot.tomb) ∧
          t'.size = t.size + 1)) ∧
      (∃ i0, stopIdx t k = some i0 ∧
        (probeIdx t k i0 = tgt ∨
          slotAt t (probeIdx t k i0) = Slot.empty)) := by
  have hcap0 : 0 < t.capacity := by have := hWf.2; omega
  unfold insertWalk at h
  cases hstop : stopIdx t k with
  | none => rw [hstop] at h; cases h
  | some i =>
    rw [hstop] at h
    dsimp only at h
    obtain ⟨hstopi, hicap, hmin⟩ := stopIdx_eq_some hstop
    have hxlt : probeIdx t k i < t.capacity := probeIdx_lt t k i hcap0
    cases hslot : slotAt t (probeIdx t k i) with
    | tomb =>
      have hf := stopAt_false_of_tomb hslot
      rw [hstopi] at hf
      cases hf
    | occ q w =>
      have hq : q = k := by
        unfold stopAt at hstopi
        rw [hslot] at hstopi
        simpa using hstopi
      rw [hq] at hslot
      rw [hslot] at h
      dsimp only at h
      injection h with h
      have hslots : t'.slots = t.slots.set (probeIdx t k i) (Slot.occ k v) := by
        rw [← h]
      have hcfg : SameCfg t' t := by
        rw [← h]
        exact ⟨rfl, rfl, rfl, rfl, rfl, rfl, rfl⟩
      have hbefore : ∀ m, m < i → probeIdx t k m ≠ probeIdx t k i ∧
          stopAt t k m = false := by
        intro m hm
        refine ⟨?_, hmin m hm⟩
        intro he
        rcases stopAt_false_elim (hmin m hm) with ht | ⟨q2, w2, hocc, hq2⟩
        · rw [he, hslot] at ht; cases ht
        · rw [he, hslot] at hocc
          injection hocc with e1 _
          exact hq2 e1.symm
      obtain ⟨hsi, hpi⟩ := stop_after_write hWf hcfg hslots hxlt rfl hicap hbefore
      exact ⟨probeIdx t k i, i, hxlt, hslots, hcfg,
        by rw [← h]; exact Nat.le_add_right _ _, hsi, hpi,
        Or.inl ⟨⟨w, hslot⟩, by rw [← h]⟩, ⟨i, rfl, Or.inl rfl⟩⟩
    | empty =>
      rw [hslot] at h
      dsimp only at h
      cases htomb : scanFirst (tombAtStep t k) 0 i with
      | none =>
        rw [htomb] at h
        rw [if_pos rfl] at h
        dsimp only at h
        injection h with h
        have hslots : t'.slots = t.slots.set (probeIdx t k i) (Slot.occ k v) := by
          rw [← h]
        have hcfg : SameCfg t' t := by
          rw [← h]
          exact ⟨rfl, rfl, rfl, rfl, rfl, rfl, rfl⟩
        have hbefore : ∀ m, m < i → probeIdx t k m ≠ probeIdx t k i ∧
            stopAt t k m = false := by
          intro m hm
          refine ⟨?_, hmin m hm⟩
          intro he
          rcases stopAt_false_elim (hmin m hm) with ht | ⟨q2, w2, hocc, hq2⟩
          · rw [he, hslot] at ht; cases ht
          · rw [he, hslot] at hocc; cases hocc
        obtain ⟨hsi, hpi⟩ := stop_after_write hWf hcfg hslots hxlt rfl hicap hbefore
        exact ⟨probeIdx t k i, i, hxlt, hslots, hcfg,
          by rw [← h]; dsimp only; omega, hsi, hpi,
          Or.inr ⟨Or.inl hslot, by rw [← h]⟩, ⟨i, rfl, Or.inr hslot⟩⟩
      | some jstar =>
        rw [htomb] at h
        obtain ⟨htj, _, hjr, hjmin⟩ := scanFirst_eq_some htomb
        have hjlt : jstar < i := by omega
        have htgtSlot : slotAt t (probeIdx t k jstar) = Slot.tomb :=
          tombAtStep_true_elim htj
        have htgtNe : probeIdx t k jstar ≠ probeIdx t k i := by
          intro he
          rw [he, hslot] at htgtSlot
          cases htgtSlot
        rw [if_neg htgtNe] at h
        dsimp only at h
        injection h with h
        have hjcap : probeIdx t k jstar < t.capacity := probeIdx_lt t k jstar hcap0
        have hslots : t'.slots = t.slots.set (probeIdx t k jstar) (Slot.occ k v) := by
          rw [← h]
        have hcfg : SameCfg t' t := by
          rw [← h]
          exact ⟨rfl, rfl, rfl, rfl, rfl, rfl, rfl⟩
        have hbefore : ∀ m, m < jstar → probeIdx t k m ≠ probeIdx t k jstar ∧
            stopAt t k m = false := by
          intro m hm
          refine ⟨?_, hmin m (by omega)⟩
          intro he
          have hnt : slotAt t (probeIdx t k m) ≠ Slot.tomb :=
            tombAtStep_false_elim (hjmin m (Nat.zero_le _) hm)
          rw [he] at hnt
          exact hnt htgtSlot
        obtain ⟨hsi, hpi⟩ :=
          stop_after_write hWf hcfg hslots hjcap rfl (by omega) hbefore
        exact ⟨probeIdx t k jstar, jstar, hjcap, hslots, hcfg,
          by rw [← h]; dsimp only; omega, hsi, hpi,
          Or.inr ⟨Or.inr htgtSlot, by rw [← h]⟩, ⟨i, rfl, Or.inr hslot⟩⟩

/-! ### The walk of an unrelated key is unaffected by a write -/

theorem insertWalk_preserves_stop {t t' : Table K V} {k k1 : K}
    {v v1 : Option V} {i1 : Nat}
    (hWf : Wf t) (h : insertWalk t k v = .ok t') (hne : k1 ≠ k)
    (hstop1 : stopIdx t k1 = some i1)
    (hslot1 : slotAt t (probeIdx t k1 i1) = Slot.occ k1 v1) :
    stopIdx t' k1 = some i1 ∧
      slotAt t' (probeIdx t' k1 i1) = Slot.occ k1 v1 ∧
      probeIdx t' k1 i1 = probeIdx t k1 i1 := by
  obtain ⟨tgt, j, htgt, hslots, hcfg, _, _, _, hdisj, _⟩ := insertWalk_spec hWf h
  have hlen : tgt < t.slots.length := by rw [hWf.1]; exact htgt
  obtain ⟨hsetEq, hsetNe⟩ := slotAt_of_set hslots hlen
  have hpe : ∀ m, probeIdx t' k1 m = probeIdx t k1 m := probeIdx_congr hcfg k1
  obtain ⟨hstop1i, hicap1, hmin1⟩ := stopIdx_eq_some hstop1
  have htgtOld : slotAt t tgt ≠ Slot.occ k1 v1 := by
    rcases hdisj with ⟨⟨w, hw⟩, _⟩ | ⟨hw | hw, _⟩ <;> rw [hw] <;> intro hcon
    · injection hcon with e1 _
      exact hne e1.symm
    · cases hcon
    · cases hcon
  have hx1ne : probeIdx t k1 i1 ≠ tgt := by
    intro he
    rw [he] at hslot1
    exact htgtOld hslot1
  have hnewMatch : slotAt t' (probeIdx t' k1 i1) = Slot.occ k1 v1 := by
    rw [hpe i1, hsetNe _ hx1ne]
    exact hslot1
  refine ⟨?_, hnewMatch, hpe i1⟩
  apply stopIdx_eq_some_of
  · rw [hcfg.1]; exact hicap1
  · exact stopAt_true_of_self hnewMatch
  · intro m hm
    by_cases hmx : probeIdx t k1 m = tgt
    · rcases hdisj with ⟨⟨w, hw⟩, _⟩ | _
      · refine stopAt_false_of_other (q := k) (w := v) ?_ ?_
        · exact fun e => hne e.symm
        · rw [hpe m, hmx]; exact hsetEq
      · refine stopAt_false_of_other (q := k) (w := v) ?_ ?_
        · exact fun e => hne e.symm
        · rw [hpe m, hmx]; exact hsetEq
    · rw [stopAt_of_untouched hcfg (by rw [hsetNe _ hmx])]
      exact hmin1 m hm

/-! ### Characterising get and remove from a known stop -/

theorem get_of_found {t : Table K V} {k : K} {i : Nat} {v : Option V}
    (hstop : stopIdx t k = some i)
    (hslot : slotAt t (probeIdx t k i) = Slot.occ k v) :
    get t k = .ok v := by
  unfold get
  rw [hstop]
  dsimp only
  rw [hslot]

theorem get_of_empty_stop {t : Table K V} {k : K} {i : Nat}
    (hstop : stopIdx t k = some i)
    (hslot : slotAt t (probeIdx t k i) = Slot.empty) :
    get t k = .ok none := by
  unfold get
  rw [hstop]
  dsimp only
  rw [hslot]

theorem remove_of_found {t : Table K V} {k : K} {i : Nat} {v : Option V}
    (hstop : stopIdx t k = some i)
    (hslot : slotAt t (probeIdx t k i) = Slot.occ k v) :
    remove t k = .ok ({ t with slots := t.slots.set (probeIdx t k i) Slot.tomb
                               size := t.size - 1 }, true) := by
  unfold remove
  rw [hstop]
  dsimp only
  rw [hslot]

theorem remove_spec {t t' : Table K V} {k : K} {b : Bool}
    (h : remove t k = .ok (t', b)) :
    (b = false ∧ t' = t ∧ ∃ i, stopIdx t k = some i ∧
        slotAt t (probeIdx t k i) = Slot.empty) ∨
      (b = true ∧ ∃ i v, stopIdx t k = some i ∧
        slotAt t (probeIdx t k i) = Slot.occ k v ∧
        t'.slots = t.slots.set (probeIdx t k i) Slot.tomb ∧
        t'.size = t.size - 1 ∧ SameCfg t' t ∧
        t'.collisions = t.collisions) := by
  unfold remove at h
  cases hstop : stopIdx t k with
  | none => rw [hstop] at h; cases h
  | some i =>
    rw [hstop] at h
    dsimp only at h
    obtain ⟨hstopi, hicap, hmin⟩ := stopIdx_eq_some hstop
    cases hslot : slotAt t (probeIdx t k i) with
    | empty =>
      rw [hslot] at h
      dsimp only at h
      injection h with h
      injection h with h1 h2
      exact Or.inl ⟨h2.symm, h1.symm, i, rfl, hslot⟩
    | tomb =>
      have hf := stopAt_false_of_tomb hslot
      rw [hstopi] at hf
      cases hf
    | occ q w =>
      have hq : q = k := by
        unfold stopAt at hstopi
        rw [hslot] at hstopi
        simpa using hstopi
      rw [hq] at hslot
      rw [hslot] at h
      dsimp only at h
      injection h with h
      injection h with h1 h2
      refine Or.inr ⟨h2.symm, i, w, rfl, hslot, ?_, ?_, ?_, ?_⟩ <;> rw [← h1]
      exact ⟨rfl, rfl, rfl, rfl, rfl, rfl, rfl⟩

theorem remove_preserves_stop {t t' : Table K V} {k k1 : K}
    {v1 : Option V} {i1 : Nat} {b : Bool}
    (hWf : Wf t) (h : remove t k = .ok (t', b)) (hne : k1 ≠ k)
    (hstop1 : stopIdx t k1 = some i1)
    (hslot1 : slotAt t (probeIdx t k1 i1) = Slot.occ k1 v1) :
    stopIdx t' k1 = some i1 ∧
      slotAt t' (probeIdx t' k1 i1) = Slot.occ k1 v1 := by
  rcases remove_spec h with ⟨_, rfl, _⟩ | ⟨_, i, v, hstop, hslot, hslots, _, hcfg, _⟩
  · exact ⟨hstop1, hslot1⟩
  · have hxcap : probeIdx t k i < t.capacity :=
      probeIdx_lt t k i (by have := hWf.2; omega)
    have hlen : probeIdx t k i < t.slots.length := by rw [hWf.1]; exact hxcap
    obtain ⟨hsetEq, hsetNe⟩ := slotAt_of_set hslots hlen
    have hpe : ∀ m, probeIdx t' k1 m = probeIdx t k1 m := probeIdx_congr hcfg k1
    obtain ⟨_, hicap1, hmin1⟩ := stopIdx_eq_some hstop1
    have hx1ne : probeIdx t k1 i1 ≠ probeIdx t k i := by
      intro he
      rw [he, hslot] at hslot1
      injection hslot1 with e1 _
      exact hne e1.symm
    have hnewMatch : slotAt t' (probeIdx t' k1 i1) = Slot.occ k1 v1 := by
      rw [hpe i1, hsetNe _ hx1ne]
      exact hslot1
    refine ⟨?_, hnewMatch⟩
    apply stopIdx_eq_some_of
    · rw [hcfg.1]; exact hicap1
    · exact stopAt_true_of_self hnewMatch
    · intro m hm
      by_cases hmx : probeIdx t k1 m = probeIdx t k i
      · apply stopAt_false_of_tomb
        rw [hpe m, hmx]
        exact hsetEq
      · rw [stopAt_of_untouched hcfg (by rw [hsetNe _ hmx])]
        exact hmin1 m hm

/-! ### Reset, fuel unfolding, and Wf preservation -/

theorem getD_ge {α : Type} :
    ∀ (l : List α) (i : Nat) (d : α), l.length ≤ i → l.getD i d = d := by
  intro l
  induction l with
  | nil => intro i d _; cases i <;> rfl
  | cons b tl ih =>
    intro i d h
    cases i with
    | zero => simp at h
    | succ n => simpa using ih n d (by simpa using h)

theorem resetTable_wf (t : Table K V) (nc : Nat) : Wf (resetTable t nc) := by
  constructor
  · simp [resetTable]
  · simp [resetTable]

theorem slotAt_reset (t : Table K V) (nc : Nat) (x : Nat) :
    slotAt (resetTable t nc) x = Slot.empty := by
  unfold slotAt resetTable
  dsimp only
  by_cases hx : x < max 3 nc
  · exact getD_replicate _ _ _ _ hx
  · exact getD_ge _ _ _ (by simpa using Nat.le_of_not_lt hx)

theorem foldl_insertAll (fuel : Nat) :
    ∀ (L : List (K × Option V)) (r : Res (Table K V)),
      L.foldl (fun acc p => Res.bind acc fun u => insertF fuel u p.1 p.2) r =
        Res.bind r (fun u => insertAll fuel u L) := by
  intro L
  induction L with
  | nil => intro r; cases r <;> rfl
  | cons p rest ih =>
    intro r
    rw [List.foldl_cons, ih]
    cases r with
    | hang => rfl
    | ok u =>
      show Res.bind (insertF fuel u p.1 p.2) _ = insertAll fuel u (p :: rest)
      obtain ⟨pk, pv⟩ := p
      cases hf : insertF fuel u pk pv with
      | hang => simp [insertAll, hf, Res.bind]
      | ok w => simp [insertAll, hf, Res.bind]

theorem insertF_succ (fuel : Nat) (t : Table K V) (k : K) (v : Option V) :
    insertF (fuel + 1) t k v =
      Res.bind
        (if loadTrigger t then rehashF fuel t (2 * t.capacity + 1) else .ok t)
        (fun u => insertWalk u k v) := by
  rw [insertF]
  by_cases hlt : loadTrigger t
  · rw [if_pos hlt, if_pos hlt, rehashF, foldl_insertAll]
    rfl
  · rw [if_neg hlt, if_neg hlt]

theorem insertWalk_wf {t t' : Table K V} {k : K} {v : Option V}
    (hWf : Wf t) (h : insertWalk t k v = .ok t') : Wf t' := by
  obtain ⟨tgt, j, _, hslots, hcfg, _⟩ := insertWalk_spec hWf h
  constructor
  · rw [hslots, List.length_set, hWf.1, hcfg.1]
  · rw [hcfg.1]; exact hWf.2

theorem insertAll_wf_of (fuel : Nat)
    (hf : ∀ (t t' : Table K V) (k : K) (v : Option V),
      Wf t → insertF fuel t k v = .ok t' → Wf t') :
    ∀ (L : List (K × Option V)) (t t' : Table K V),
      Wf t → insertAll fuel t L = .ok t' → Wf t' := by
  intro L
  induction L with
  | nil =>
    intro t t' hWf h
    rw [insertAll] at h
    injection h with h
    rw [← h]
    exact hWf
  | cons p rest ih =>
    intro t t' hWf h
    obtain ⟨pk, pv⟩ := p
    rw [insertAll] at h
    cases hstep : insertF fuel t pk pv with
    | hang => rw [hstep] at h; cases h
    | ok u =>
      rw [hstep] at h
      exact ih u t' (hf _ _ _ _ hWf hstep) h

theorem insertF_wf : ∀ (fuel : Nat) (t t' : Table K V) (k : K) (v : Option V),
    Wf t → insertF fuel t k v = .ok t' → Wf t' := by
  intro fuel
  induction fuel with
  | zero => intro t t' k v _ h; rw [insertF] at h; cases h
  | succ n ih =>
    intro t t' k v hWf h
    rw [insertF_succ] at h
    by_cases hlt : loadTrigger t
    · rw [if_pos hlt] at h
      cases hre : rehashF n t (2 * t.capacity + 1) with
      | hang => rw [hre] at h; cases h
      | ok u =>
        rw [hre] at h
        have hu : Wf u :=
          insertAll_wf_of n (fun a b c d => ih a b c d) _ _ _
            (resetTable_wf t _) hre
        exact insertWalk_wf hu h
    · rw [if_neg hlt] at h
      exact insertWalk_wf hWf h

theorem insertAll_wf (fuel : Nat) {L : List (K × Option V)} {t t' : Table K V}
    (hWf : Wf t) (h : insertAll fuel t L = .ok t') : Wf t' :=
  insertAll_wf_of fuel (insertF_wf fuel) L t t' hWf h

theorem rehashF_wf (fuel : Nat) {t t' : Table K V} {nc : Nat}
    (h : rehashF fuel t nc = .ok t') : Wf t' :=
  insertAll_wf fuel (resetTable_wf t nc) h

theorem remove_wf {t t' : Table K V} {k : K} {b : Bool}
    (hWf : Wf t) (h : remove t k = .ok (t', b)) : Wf t' := by
  rcases remove_spec h with ⟨_, rfl, _⟩ | ⟨_, i, v, _, _, hslots, _, hcfg, _⟩
  · exact hWf
  · constructor
    · rw [hslots, List.length_set, hWf.1, hcfg.1]
    · rw [hcfg.1]; exact hWf.2

/-! ### After a successful insert the key is present at its walk's stop -/

theorem insertWalk_found {t t' : Table K V} {k : K} {v : Option V}
    (hWf : Wf t) (h : insertWalk t k v = .ok t') :
    ∃ j, stopIdx t' k = some j ∧
      slotAt t' (probeIdx t' k j) = Slot.occ k v := by
  obtain ⟨tgt, j, htgt, hslots, hcfg, _, hstop, hprobe, _⟩ := insertWalk_spec hWf h
  have hlen : tgt < t.slots.length := by rw [hWf.1]; exact htgt
  obtain ⟨hsetEq, _⟩ := slotAt_of_set hslots hlen
  exact ⟨j, hstop, by rw [hprobe]; exact hsetEq⟩

theorem insertF_found {fuel : Nat} {t t' : Table K V} {k : K} {v : Option V}
    (hWf : Wf t) (h : insertF fuel t k v = .ok t') :
    ∃ j, stopIdx t' k = some j ∧
      slotAt t' (probeIdx t' k j) = Slot.occ k v := by
  cases fuel with
  | zero => rw [insertF] at h; cases h
  | succ n =>
    rw [insertF_succ] at h
    by_cases hlt : loadTrigger t
    · rw [if_pos hlt] at h
      cases hre : rehashF n t (2 * t.capacity + 1) with
      | hang => rw [hre] at h; cases h
      | ok u => rw [hre] at h; exact insertWalk_found (rehashF_wf n hre) h
    · rw [if_neg hlt] at h
      exact insertWalk_found hWf h

theorem insertF_get {fuel : Nat} {t t' : Table K V} {k : K} {v : Option V}
    (hWf : Wf t) (h : insertF fuel t k v = .ok t') : get t' k = .ok v := by
  obtain ⟨j, hstop, hslot⟩ := insertF_found hWf h
  exact get_of_found hstop hslot

/-! ### The size counter tracks the number of occupied slots -/

theorem countP_replicate_false {α : Type} (p : α → Bool) (a : α)
    (ha : p a = false) : ∀ n, (List.replicate n a).countP p = 0 := by
  intro n
  induction n with
  | zero => rfl
  | succ m ih => simp [List.replicate, List.countP_cons, ih, ha]

theorem occCount_reset (t : Table K V) (nc : Nat) :
    occCount (resetTable t nc) = 0 := by
  unfold occCount resetTable
  dsimp only
  exact countP_replicate_false _ _ rfl _

theorem occCount_set_occ {t t' : Table K V} {tgt : Nat} {k : K} {v : Option V}
    (hWf : Wf t) (htgt : tgt < t.capacity)
    (hslots : t'.slots = t.slots.set tgt (Slot.occ k v)) :
    occCount t' + (if isOcc (slotAt t tgt) then 1 else 0) =
      occCount t + 1 := by
  have hlen : tgt < t.slots.length := by rw [hWf.1]; exact htgt
  have hc := countP_set isOcc t.slots tgt (Slot.occ k v) Slot.empty hlen
  unfold occCount
  rw [hslots]
  unfold slotAt
  simpa [isOcc] using hc

theorem occCount_set_tomb {t t' : Table K V} {tgt : Nat} {k : K} {v : Option V}
    (hWf : Wf t) (htgt : tgt < t.capacity)
    (hold : slotAt t tgt = Slot.occ k v)
    (hslots : t'.slots = t.slots.set tgt Slot.tomb) :
    occCount t' + 1 = occCount t := by
  have hlen : tgt < t.slots.length := by rw [hWf.1]; exact htgt
  have hc := countP_set isOcc t.slots tgt Slot.tomb Slot.empty hlen
  unfold occCount
  rw [hslots]
  unfold slotAt at hold
  rw [hold] at hc
  simpa [isOcc] using hc

theorem insertWalk_sizeInv {t t' : Table K V} {k : K} {v : Option V}
    (hWf : Wf t) (hsz : SizeInv t) (h : insertWalk t k v = .ok t') :
    SizeInv t' := by
  obtain ⟨tgt, j, htgt, hslots, hcfg, _, _, _, hdisj, _⟩ := insertWalk_spec hWf h
  have hc := occCount_set_occ hWf htgt hslots
  unfold SizeInv at hsz ⊢
  rcases hdisj with ⟨⟨w, hw⟩, hsize⟩ | ⟨hw, hsize⟩
  · rw [hw] at hc
    simp only [isOcc, if_pos] at hc
    have hco : occCount t' = occCount t := by omega
    rw [hsize, hco]
    exact hsz
  · have hco : occCount t' = occCount t + 1 := by
      rcases hw with hw | hw <;> rw [hw] at hc <;> simpa [isOcc] using hc
    rw [hsize, hco, hsz]
    push_cast
    ring

theorem remove_sizeInv {t t' : Table K V} {k : K} {b : Bool}
    (hWf : Wf t) (hsz : SizeInv t) (h : remove t k = .ok (t', b)) :
    SizeInv t' := by
  rcases remove_spec h with ⟨_, rfl, _⟩ | ⟨_, i, v, _, hslot, hslots, hsize, hcfg, _⟩
  · exact hsz
  · have hxcap : probeIdx t k i < t.capacity :=
      probeIdx_lt t k i (by have := hWf.2; omega)
    have hc := occCount_set_tomb hWf hxcap hslot hslots
    unfold SizeInv at hsz ⊢
    rw [hsize, hsz]
    have : (occCount t : Int) = (occCount t' : Int) + 1 := by
      rw [← hc]; push_cast; ring
    rw [this]
    ring

theorem resetTable_sizeInv (t : Table K V) (nc : Nat) :
    SizeInv (resetTable t nc) := by
  unfold SizeInv
  rw [occCount_reset]
  rfl

theorem insertAll_sizeInv_of (fuel : Nat)
    (hf : ∀ (t t' : Table K V) (k : K) (v : Option V),
      Wf t → SizeInv t → insertF fuel t k v = .ok t' → SizeInv t') :
    ∀ (L : List (K × Option V)) (t t' : Table K V),
      Wf t → SizeInv t → insertAll fuel t L = .ok t' → SizeInv t' := by
  intro L
  induction L with
  | nil =>
    intro t t' _ hsz h
    rw [insertAll] at h
    injection h with h
    rw [← h]
    exact hsz
  | cons p rest ih =>
    intro t t' hWf hsz h
    obtain ⟨pk, pv⟩ := p
    rw [insertAll] at h
    cases hstep : insertF fuel t pk pv with
    | hang => rw [hstep] at h; cases h
    | ok u =>
      rw [hstep] at h
      exact ih u t' (insertF_wf fuel _ _ _ _ hWf hstep)
        (hf _ _ _ _ hWf hsz hstep) h

theorem insertF_sizeInv : ∀ (fuel : Nat) (t t' : Table K V) (k : K)
    (v : Option V), Wf t → SizeInv t → insertF fuel t k v = .ok t' →
    SizeInv t' := by
  intro fuel
  induction fuel with
  | zero => intro t t' k v _ _ h; rw [insertF] at h; cases h
  | succ n ih =>
    intro t t' k v hWf hsz h
    rw [insertF_succ] at h
    by_cases hlt : loadTrigger t
    · rw [if_pos hlt] at h
      cases hre : rehashF n t (2 * t.capacity + 1) with
      | hang => rw [hre] at h; cases h
      | ok u =>
        rw [hre] at h
        have hu : SizeInv u :=
          insertAll_sizeInv_of n (fun a b c d => ih a b c d) _ _ _
            (resetTable_wf t _) (resetTable_sizeInv t _) hre
        exact insertWalk_sizeInv (rehashF_wf n hre) hu h
    · rw [if_neg hlt] at h
      exact insertWalk_sizeInv hWf hsz h

theorem rehashF_sizeInv (fuel : Nat) {t t' : Table K V} {nc : Nat}
    (h : rehashF fuel t nc = .ok t') : SizeInv t' :=
  insertAll_sizeInv_of fuel (insertF_sizeInv fuel) _ _ _
    (resetTable_wf t nc) (resetTable_sizeInv t nc) h

theorem new_wf (cap : Nat) (hf shf : Option (K → Nat)) (mode : Mode)
    (thN thD : Nat) (ph : K → Nat) : Wf (new K V cap hf shf mode thN thD ph) := by
  constructor
  · simp [new]
  · simp [new]

theorem reachable_wf_sizeInv {t : Table K V} (h : Reachable t) :
    Wf t ∧ SizeInv t := by
  induction h with
  | base cap hf shf mode thN thD ph =>
    refine ⟨new_wf cap hf shf mode thN thD ph, ?_⟩
    unfold SizeInv new occCount
    dsimp only
    rw [countP_replicate_false _ _ rfl]
    rfl
  | ins _ hstep ih =>
    exact ⟨insertF_wf _ _ _ _ _ ih.1 hstep,
      insertF_sizeInv _ _ _ _ _ ih.1 ih.2 hstep⟩
  | rem _ hstep ih =>
    exact ⟨remove_wf ih.1 hstep, remove_sizeInv ih.1 ih.2 hstep⟩
  | reh _ hstep ih =>
    exact ⟨rehashF_wf _ hstep, rehashF_sizeInv _ hstep⟩

/-! ### The probing configuration is preserved by every operation -/

theorem sameFns_refl (t : Table K V) : SameFns t t :=
  ⟨rfl, rfl, rfl, rfl, rfl, rfl⟩

theorem sameFns_trans {a b c : Table K V}
    (h1 : SameFns a b) (h2 : SameFns b c) : SameFns a c := by
  obtain ⟨a1, a2, a3, a4, a5, a6⟩ := h1
  obtain ⟨b1, b2, b3, b4, b5, b6⟩ := h2
  exact ⟨a1.trans b1, a2.trans b2, a3.trans b3, a4.trans b4,
    a5.trans b5, a6.trans b6⟩

theorem insertWalk_fns {t t' : Table K V} {k : K} {v : Option V}
    (hWf : Wf t) (h : insertWalk t k v = .ok t') :
    SameFns t' t ∧ t'.capacity = t.capacity := by
  obtain ⟨_, _, _, _, hcfg, _⟩ := insertWalk_spec hWf h
  obtain ⟨h1, h2, h3, h4, h5, h6, h7⟩ := hcfg
  exact ⟨⟨h2, h3, h4, h5, h6, h7⟩, h1⟩

theorem resetTable_fns (t : Table K V) (nc : Nat) :
    SameFns (resetTable t nc) t :=
  ⟨rfl, rfl, rfl, rfl, rfl, rfl⟩

theorem insertAll_fns_of (fuel : Nat)
    (hf : ∀ (t t' : Table K V) (k : K) (v : Option V), Wf t →
      insertF fuel t k v = .ok t' → SameFns t' t) :
    ∀ (L : List (K × Option V)) (t t' : Table K V), Wf t →
      insertAll fuel t L = .ok t' → SameFns t' t := by
  intro L
  induction L with
  | nil =>
    intro t t' _ h
    rw [insertAll] at h
    injection h with h
    rw [← h]
    exact sameFns_refl t
  | cons p rest ih =>
    intro t t' hWf h
    obtain ⟨pk, pv⟩ := p
    rw [insertAll] at h
    cases hstep : insertF fuel t pk pv with
    | hang => rw [hstep] at h; cases h
    | ok u =>
      rw [hstep] at h
      exact sameFns_trans
        (ih u t' (insertF_wf fuel _ _ _ _ hWf hstep) h)
        (hf _ _ _ _ hWf hstep)

theorem insertF_fns : ∀ (fuel : Nat) (t t' : Table K V) (k : K) (v : Option V),
    Wf t → insertF fuel t k v = .ok t' → SameFns t' t := by
  intro fuel
  induction fuel with
  | zero => intro t t' k v _ h; rw [insertF] at h; cases h
  | succ n ih =>
    intro t t' k v hWf h
    rw [insertF_succ] at h
    by_cases hlt : loadTrigger t
    · rw [if_pos hlt] at h
      cases hre : rehashF n t (2 * t.capacity + 1) with
      | hang => rw [hre] at h; cases h
      | ok u =>
        rw [hre] at h
        have hu : Wf u := rehashF_wf n hre
        have h1 : SameFns u (resetTable t (2 * t.capacity + 1)) :=
          insertAll_fns_of n (fun a b c d => ih a b c d) _ _ _
            (resetTable_wf t _) hre
        exact sameFns_trans (insertWalk_fns hu h).1
          (sameFns_trans h1 (resetTable_fns t _))
    · rw [if_neg hlt] at h
      exact (insertWalk_fns hWf h).1

theorem rehashF_fns (fuel : Nat) {t t' : Table K V} {nc : Nat}
    (h : rehashF fuel t nc = .ok t') : SameFns t' t :=
  sameFns_trans
    (insertAll_fns_of fuel (insertF_fns fuel) _ _ _ (resetTable_wf t nc) h)
    (resetTable_fns t nc)

/-! ### Claim C1 -/

/-- C1: the claim says every public operation is bounded by `capacity`
probe steps, with `get` yielding `None` and `insert` signalling "table
full" on exhaustion.  The code has no such bound: its probe generator is
infinite, and on the reachable state `c1t4` (capacity 3, slots
tombstone/occupied/occupied after insert 0, remove 0, insert 1, insert
2) both `get` and the insert walk for a fresh key hashing to 0 loop
forever — the walk predicate is false at every step, so the Python loop
never exits. -/
theorem claim1_probe_walks_can_hang :
    insertF 1 c1t0 0 (some 100) = .ok c1t1 ∧
    remove c1t1 0 = .ok (c1t2, true) ∧
    insertF 1 c1t2 1 (some 101) = .ok c1t3 ∧
    insertF 1 c1t3 2 (some 102) = .ok c1t4 ∧
    c1t4.capacity = 3 ∧
    get c1t4 3 = .hang ∧
    insertWalk c1t4 3 (some 9) = .hang ∧
    (∀ i, stopAt c1t4 3 i = false) := by
  refine ⟨rfl, rfl, rfl, rfl, rfl, rfl, rfl, ?_⟩
  exact stopAt_of_none (by decide) (by decide)

/-! ### Claim C2 -/

/-- C2: insert(k, v) followed immediately by get(k) returns v, for every
well-formed table state in which the insert returns (linear or double
mode alike). -/
theorem claim2_insert_get_roundtrip (fuel : Nat) (t t' : Table K V)
    (k : K) (v : Option V) (hWf : Wf t)
    (h : insertF fuel t k v = .ok t') : get t' k = .ok v :=
  insertF_get hWf h

theorem claim2_witness : get c2t1 4 = .ok (some 7) :=
  claim2_insert_get_roundtrip 1 c2t c2t1 4 (some 7) ⟨rfl, by decide⟩ rfl

/-! ### Claim C9 -/

/-- C9: in every state reachable from a freshly constructed table by
insert, remove and rehash, the size counter equals the number of
occupied slots. -/
theorem claim9_size_eq_occupied {t : Table K V} (h : Reachable t) :
    t.size = (occCount t : Int) :=
  (reachable_wf_sizeInv h).2

theorem claim9_witness : c9t.size = (occCount c9t : Int) :=
  claim9_size_eq_occupied
    (Reachable.ins (Reachable.base 3 (some id) none Mode.linear 3 5 id)
      (rfl : insertF 1 c9base 0 (some 5) = .ok c9t))

/-! ### Claim C10 -/

/-- C10: after insert(k, None) the key is invisible to get and contains
(both report absence), yet remove(k) still returns true and decrements
size — contains = false does not imply remove = false. -/
theorem claim10_none_value_removable (fuel : Nat) (t t' : Table K V) (k : K)
    (hWf : Wf t) (h : insertF fuel t k none = .ok t') :
    get t' k = .ok none ∧ contains t' k = .ok false ∧
      ∃ t2, remove t' k = .ok (t2, true) ∧ t2.size = t'.size - 1 := by
  obtain ⟨j, hstop, hslot⟩ := insertF_found hWf h
  have hget : get t' k = .ok none := get_of_found hstop hslot
  refine ⟨hget, ?_, ?_⟩
  · unfold contains
    rw [hget]
    rfl
  · exact ⟨_, remove_of_found hstop hslot, rfl⟩

theorem claim10_witness :
    get c10t1 2 = .ok none ∧ contains c10t1 2 = .ok false ∧
      ∃ t2, remove c10t1 2 = .ok (t2, true) ∧ t2.size = c10t1.size - 1 :=
  claim10_none_value_removable 1 c10t c10t1 2 ⟨rfl, by decide⟩ rfl

/-! ### Claim C5 -/

theorem slotAt_new (cap : Nat) (hf shf : Option (K → Nat)) (mode : Mode)
    (thN thD : Nat) (ph : K → Nat) (x : Nat) :
    slotAt (new K V cap hf shf mode thN thD ph) x = Slot.empty := by
  unfold slotAt new
  dsimp only
  by_cases hx : x < max 3 cap
  · exact getD_replicate _ _ _ _ hx
  · exact getD_ge _ _ _ (by simpa using Nat.le_of_not_lt hx)

/-- C5 counterexample: in double mode without a supplied second hash and
with a custom primary hash (constantly 0), the probing step for key 5 at
capacity 11 is 6 = 1 + (builtin_hash(5) mod 10), not
1 + (primary_hash(5) mod 10) = 1: the default lambda closes over the
builtin hash, not over the table's primary hash function. -/
theorem claim5_counterexample :
    c5t.secondF = none ∧ c5t.mode = Mode.double ∧
    c5t.hashF 5 = 0 ∧ c5t.pyHash 5 = 5 ∧ c5t.capacity = 11 ∧
    stepOf c5t 5 = 6 ∧
    stepOf c5t 5 ≠ 1 + c5t.hashF 5 % (c5t.capacity - 1) := by
  exact ⟨rfl, rfl, rfl, rfl, rfl, rfl, by decide⟩

/-- C5 amended: without a supplied second hash function, the probing step
is derived from the *builtin* hash (`pyHash`), namely
step = 1 + (builtin_hash(key) mod (capacity - 1)), computed against the
table's current capacity (so automatically recomputed after a rehash);
in double mode the walk is h1 + i * step mod capacity with that step. -/
theorem claim5_default_step_from_builtin_hash (t : Table K V) (k : K)
    (hWf : Wf t) (hsf : t.secondF = none) :
    stepOf t k = 1 + t.pyHash k % (t.capacity - 1) ∧
    (t.mode = Mode.double → ∀ i,
      probeIdx t k i =
        (t.hashF k % t.capacity +
          i * (1 + t.pyHash k % (t.capacity - 1))) % t.capacity) := by
  have h3 : 3 ≤ t.capacity := hWf.2
  have hml : t.pyHash k % (t.capacity - 1) < t.capacity - 1 :=
    Nat.mod_lt _ (by omega)
  have hstep : stepOf t k = 1 + t.pyHash k % (t.capacity - 1) := by
    unfold stepOf
    rw [hsf]
    dsimp only
    rw [Nat.mod_eq_of_lt (by omega)]
    rw [if_neg (by omega)]
  refine ⟨hstep, fun hmode i => ?_⟩
  unfold probeIdx
  rw [hmode]
  dsimp only
  rw [hstep]

theorem claim5_witness :
    stepOf c5t 5 = 1 + c5t.pyHash 5 % (c5t.capacity - 1) ∧
    probeIdx c5t 5 2 = (c5t.hashF 5 % c5t.capacity +
      2 * (1 + c5t.pyHash 5 % (c5t.capacity - 1))) % c5t.capacity := by
  obtain ⟨h1, h2⟩ :=
    claim5_default_step_from_builtin_hash c5t 5 ⟨rfl, by decide⟩ rfl
  exact ⟨h1, h2 rfl 2⟩

/-! ### Claim C6 -/

theorem countP_pos_of_mem {α : Type} {p : α → Bool} :
    ∀ {l : List α} {a : α}, a ∈ l → p a = true → 0 < l.countP p := by
  intro l
  induction l with
  | nil => intro a h; cases h
  | cons b tl ih =>
    intro a h hp
    rw [List.countP_cons]
    rcases List.mem_cons.mp h with rfl | hmem
    · rw [hp]; simp
    · have := ih hmem hp; omega

/-- C6 counterexample: with a constant hash at capacity 3, after
insert 0 / remove 0 the slot at index 0 (the primary probe position of
every key) is a tombstone; inserting the fresh key 1 then lands exactly
at index 0 — its primary probe index — yet collisions goes from 0 to 1,
because the landing reused a tombstone.  This refutes "collisions is
incremented iff the landing index differs from the primary probe index". -/
theorem claim6_counterexample :
    insertF 1 c6t2 1 (some 11) = .ok c6t3 ∧
    probeIdx c6t2 1 0 = 0 ∧
    slotAt c6t2 0 = Slot.tomb ∧
    slotAt c6t3 0 = Slot.occ 1 (some 11) ∧
    slotAt c6t3 1 = Slot.empty ∧
    slotAt c6t3 2 = Slot.empty ∧
    c6t2.collisions = 0 ∧
    c6t3.collisions = 1 :=
  ⟨rfl, rfl, rfl, rfl, rfl, rfl, rfl, rfl⟩

/-- C6 amended: for an insert of a new key (no slot holds it), the
collisions counter is unchanged iff the slot at the key's primary probe
position is empty — equivalently, it increases iff the walk moved past
at least one occupied or tombstone slot before landing.  (The landing
index criterion of the original claim is wrong: a tombstone at the
primary position is reused as the landing slot and still counts.) -/
theorem claim6_collision_iff_nonempty_primary (t t' : Table K V) (k : K)
    (v : Option V) (hWf : Wf t)
    (hfresh : ∀ x w, slotAt t x ≠ Slot.occ k w)
    (h : insertWalk t k v = .ok t') :
    t'.collisions = t.collisions ↔
      slotAt t (probeIdx t k 0) = Slot.empty := by
  unfold insertWalk at h
  cases hstop : stopIdx t k with
  | none => rw [hstop] at h; cases h
  | some i =>
    rw [hstop] at h
    dsimp only at h
    obtain ⟨hstopi, hicap, hmin⟩ := stopIdx_eq_some hstop
    have hslot : slotAt t (probeIdx t k i) = Slot.empty := by
      rcases stopAt_true_elim hstopi with he | ⟨w, hw⟩
      · exact he
      · exact absurd hw (hfresh _ w)
    rw [hslot] at h
    dsimp only at h
    cases htomb : scanFirst (tombAtStep t k) 0 i with
    | none =>
      rw [htomb] at h
      rw [if_pos rfl] at h
      dsimp only at h
      injection h with h
      constructor
      · intro hcoll
        rw [← h] at hcoll
        dsimp only at hcoll
        by_cases hi : i = 0
        · rw [← hi]; exact hslot
        · exfalso
          have h0 : stopAt t k 0 = false := hmin 0 (by omega)
          rcases stopAt_false_elim h0 with ht | ⟨q, w, hocc, hq⟩
          · exact tombAtStep_false_elim
              (scanFirst_eq_none htomb 0 (by omega) (by omega)) ht
          · have hstep : occOtherAtStep t k 0 = true := by
              unfold occOtherAtStep
              rw [hocc]
              simpa using hq
            have hpos : 0 < occOtherCount t k i :=
              countP_pos_of_mem (List.mem_range.mpr (by omega)) hstep
            omega
      · intro h0empty
        have hi : i = 0 := by
          by_contra hi
          have hm := hmin 0 (by omega)
          rw [stopAt_true_of_empty h0empty] at hm
          cases hm
        subst hi
        rw [← h]
        dsimp only
        rfl
    | some jstar =>
      rw [htomb] at h
      obtain ⟨htj, _, hjr, hjmin⟩ := scanFirst_eq_some htomb
      have hjlt : jstar < i := by omega
      have htgtSlot := tombAtStep_true_elim htj
      have htgtNe : probeIdx t k jstar ≠ probeIdx t k i := by
        intro he
        rw [he, hslot] at htgtSlot
        cases htgtSlot
      rw [if_neg htgtNe] at h
      dsimp only at h
      injection h with h
      constructor
      · intro hcoll
        exfalso
        rw [← h] at hcoll
        dsimp only at hcoll
        omega
      · intro h0empty
        exfalso
        have hi0 : i = 0 := by
          by_contra hi
          have hm := hmin 0 (by omega)
          rw [stopAt_true_of_empty h0empty] at hm
          cases hm
        omega

theorem claim6_witness :
    c6wt1.collisions = c6wt.collisions ↔
      slotAt c6wt (probeIdx c6wt 2 0) = Slot.empty :=
  claim6_collision_iff_nonempty_primary c6wt c6wt1 2 (some 1)
    ⟨rfl, by decide⟩
    (fun x w => by simp [c6wt, slotAt_new])
    rfl

/-! ### Claim C3 -/

/-- C3 counterexample: from an empty table with capacity 101 and
threshold 0.6, inserting 61 distinct keys triggers NO rehash: the load
check runs before each insert, and before the 61st insert the load is
60/101 < 0.6.  Capacity stays 101 (the claim says it becomes 203). -/
theorem claim3_counterexample :
    c3r61 = .ok c3t61 ∧ c3t61.capacity = 101 ∧ c3t61.size = 61 ∧
      c3t61.capacity ≠ 203 :=
  ⟨rfl, rfl, rfl, by decide⟩

/-- C3 amended: inserting 62 distinct keys triggers exactly one rehash —
none during the first 61 inserts (capacity still 101, by
the counterexample run, whose first 61 steps this run shares), and
exactly one during the 62nd (61/101 ≥ 0.6 holds before it), taking the
capacity from 101 to 2*101+1 = 203 in a single step — after which all 62
keys are retrievable with their values. -/
theorem claim3_amended :
    c3r62 = .ok c3t62 ∧
    insertF 2 c3t61 61 (some 61) = .ok c3t62 ∧
    c3t61.capacity = 101 ∧
    c3t62.capacity = 203 ∧ c3t62.size = 62 ∧
    ((List.range 62).all fun k => decide (get c3t62 k = .ok (some k))) =
      true := by
  refine ⟨rfl, rfl, rfl, rfl, rfl, ?_⟩
  decide

/-! ### Claim C4 -/

/-- Sequentially inserting pairs with pairwise-distinct keys, all absent
from the table, while the load factor stays strictly below the threshold
throughout, keeps the capacity, adds exactly the pairs (all retrievable
afterwards, previously retrievable keys staying retrievable), never
decreases `collisions`, and every occupied slot of the result stems from
the inserted list or from the original table. -/
theorem insertAll_tracked (fuel : Nat) :
    ∀ (L : List (K × Option V)) (t t' : Table K V),
      Wf t →
      (L.map Prod.fst).Nodup →
      (∀ p ∈ L, FreshIn t p.1) →
      (∀ n : Nat, n < L.length →
        (t.size + (n : Int)) * (t.thDen : Int) <
          (t.thNum : Int) * (t.capacity : Int)) →
      insertAll fuel t L = .ok t' →
      t'.capacity = t.capacity ∧
      t'.size = t.size + (L.length : Int) ∧
      t'.collisions ≥ t.collisions ∧
      SameFns t' t ∧ Wf t' ∧
      (∀ p ∈ L, FoundAt t' p.1 p.2) ∧
      (∀ (k1 : K) (v1 : Option V), FoundAt t k1 v1 →
        (∀ p ∈ L, k1 ≠ p.1) → FoundAt t' k1 v1) ∧
      (∀ (x : Nat) (k1 : K) (v1 : Option V),
        slotAt t' x = Slot.occ k1 v1 →
        (k1, v1) ∈ L ∨ slotAt t x = Slot.occ k1 v1) ∧
      (Uniq t → Uniq t') := by
  intro L
  induction L with
  | nil =>
    intro t t' hWf _ _ _ h
    rw [insertAll] at h
    injection h with h
    rw [← h]
    refine ⟨rfl, by simp, Nat.le_refl _, sameFns_refl t, hWf, ?_, ?_, ?_, fun hU => hU⟩
    · intro p hp; cases hp
    · intro k1 v1 hf _; exact hf
    · intro x k1 v1 hs; exact Or.inr hs
  | cons p rest ih =>
    intro t t' hWf hnodup hfresh htrig h
    obtain ⟨pk, pv⟩ := p
    rw [insertAll] at h
    cases hstep : insertF fuel t pk pv with
    | hang => rw [hstep] at h; cases h
    | ok u =>
      rw [hstep] at h
      cases fuel with
      | zero => rw [insertF] at hstep; cases hstep
      | succ n =>
        have hnt : loadTrigger t = false := by
          have h0 := htrig 0 (by simp)
          push_cast at h0
          rw [add_zero] at h0
          unfold loadTrigger
          simp only [decide_eq_false_iff_not, not_le]
          push_cast
          exact h0
        rw [insertF_succ, if_neg (by simp [hnt])] at hstep
        have hwalk : insertWalk t pk pv = .ok u := hstep
        have hfr : FreshIn t pk := hfresh (pk, pv) (by simp)
        obtain ⟨tgt, j, htgt, hslots, hcfg, hcoll, hstopu, hprobeu, hdisj, _⟩ :=
          insertWalk_spec hWf hwalk
        obtain ⟨hc1, hc2, hc3, hc4, hc5, hc6, hc7⟩ := hcfg
        have hsz : u.size = t.size + 1 := by
          rcases hdisj with ⟨⟨w, hw⟩, _⟩ | ⟨_, hs⟩
          · exact absurd hw (hfr tgt w)
          · exact hs
        have hWfu : Wf u := insertWalk_wf hWf hwalk
        have hlen : tgt < t.slots.length := by rw [hWf.1]; exact htgt
        obtain ⟨hsetEq, hsetNe⟩ := slotAt_of_set hslots hlen
        have hnodup2 : (pk :: rest.map Prod.fst).Nodup := by
          simpa only [List.map_cons] using hnodup
        have hheadNe : ∀ q ∈ rest, pk ≠ q.1 := by
          intro q hq he
          exact (List.nodup_cons.mp hnodup2).1
            (List.mem_map.mpr ⟨q, hq, he.symm⟩)
        have hnodup' : (rest.map Prod.fst).Nodup :=
          (List.nodup_cons.mp hnodup2).2
        have hfresh' : ∀ q ∈ rest, FreshIn u q.1 := by
          intro q hq x w
          by_cases hx : x = tgt
          · rw [hx, hsetEq]
            intro hcon
            injection hcon with e _
            exact hheadNe q hq e
          · rw [hsetNe x hx]
            exact hfresh q (List.mem_cons_of_mem _ hq) x w
        have htrig' : ∀ m : Nat, m < rest.length →
            (u.size + (m : Int)) * (u.thDen : Int) <
              (u.thNum : Int) * (u.capacity : Int) := by
          intro m hm
          rw [hsz, hc1, hc6, hc7]
          have hmm := htrig (m + 1) (by simp; omega)
          push_cast at hmm
          have he : t.size + 1 + (m : Int) = t.size + ((m : Int) + 1) := by
            ring
          rw [he]
          exact hmm
        obtain ⟨ih1, ih2, ih3, ih4, ih5, ih6, ih7, ih8, ih9⟩ :=
          ih u t' hWfu hnodup' hfresh' htrig' h
        have hfoundU : FoundAt u pk pv :=
          ⟨j, hstopu, by rw [hprobeu]; exact hsetEq⟩
        refine ⟨by rw [ih1, hc1], ?_, ?_, ?_, ih5, ?_, ?_, ?_, ?_⟩
        · rw [ih2, hsz, List.length_cons]; push_cast; ring
        · exact Nat.le_trans hcoll ih3
        · exact sameFns_trans ih4 ⟨hc2, hc3, hc4, hc5, hc6, hc7⟩
        · intro q hq
          rcases List.mem_cons.mp hq with he | hq2
          · rw [he]
            exact ih7 pk pv hfoundU hheadNe
          · exact ih6 q hq2
        · intro k1 v1 hf hnot
          have hne1 : k1 ≠ pk := hnot (pk, pv) (by simp)
          obtain ⟨i1, hst1, hsl1⟩ := hf
          obtain ⟨hstu, hslu, _⟩ :=
            insertWalk_preserves_stop hWf hwalk hne1 hst1 hsl1
          exact ih7 k1 v1 ⟨i1, hstu, hslu⟩
            (fun q hq => hnot q (List.mem_cons_of_mem _ hq))
        · intro x k1 v1 hs
          rcases ih8 x k1 v1 hs with hmem | hslotu
          · exact Or.inl (List.mem_cons_of_mem _ hmem)
          · by_cases hx : x = tgt
            · rw [hx, hsetEq] at hslotu
              injection hslotu with e1 e2
              rw [← e1, ← e2]
              exact Or.inl (List.mem_cons_self _ _)
            · rw [hsetNe x hx] at hslotu
              exact Or.inr hslotu
        · intro hUt
          apply ih9
          intro x y k1 vx vy hx hy
          by_cases hxt : x = tgt <;> by_cases hyt : y = tgt
          · rw [hxt, hyt]
          · exfalso
            rw [hxt, hsetEq] at hx
            injection hx with e1 _
            rw [hsetNe y hyt] at hy
            rw [← e1] at hy
            exact hfr y vy hy
          · exfalso
            rw [hyt, hsetEq] at hy
            injection hy with e1 _
            rw [hsetNe x hxt] at hx
            rw [← e1] at hx
            exact hfr x vx hx
          · rw [hsetNe x hxt] at hx
            rw [hsetNe y hyt] at hy
            exact hUt x y k1 vx vy hx hy

/-- C4 counterexample: `_rehash(3)` on a 7-capacity table holding 4 live
keys does NOT leave the capacity at max(3, 3) = 3: the reinsertion loop
itself crosses the 0.6 threshold at the shrunken capacity and triggers a
nested rehash, landing at capacity 7. -/
theorem claim4_counterexample :
    c4t1.size = 4 ∧ c4t1.capacity = 7 ∧
    c4r = .ok c4t2 ∧
    c4t2.capacity = 7 ∧ max 3 3 = 3 ∧ c4t2.capacity ≠ max 3 3 :=
  ⟨rfl, rfl, rfl, rfl, rfl, by decide⟩

/-- C4 amended: `rehash(new_capacity)` sets the capacity to
max(3, new_capacity), drops tombstones and empties, re-inserts every
occupied pair so that each previously live key is still retrievable with
its value, resets size to the number of live pairs, and never decreases
the collisions counter — provided the reinsertion never crosses the
load-factor threshold at the new capacity (as is the case for every
rehash the table itself triggers); otherwise a nested rehash may grow
the capacity further, as the counterexample shows. -/
theorem claim4_rehash_tracked (fuel : Nat) (t t' : Table K V) (nc : Nat)
    (hWf : Wf t)
    (hnodup : ((collectOcc t).map Prod.fst).Nodup)
    (htrig : ∀ n : Nat, n < (collectOcc t).length →
      ((n : Int)) * (t.thDen : Int) <
        (t.thNum : Int) * ((max 3 nc : Nat) : Int))
    (h : rehashF fuel t nc = .ok t') :
    t'.capacity = max 3 nc ∧
    t'.size = ((collectOcc t).length : Int) ∧
    t'.collisions ≥ t.collisions ∧
    ∀ p ∈ collectOcc t, get t' p.1 = .ok p.2 := by
  unfold rehashF at h
  have hfresh : ∀ p ∈ collectOcc t, FreshIn (resetTable t nc) p.1 := by
    intro p _ x w
    rw [slotAt_reset]
    intro hcon
    cases hcon
  have htrig' : ∀ n : Nat, n < (collectOcc t).length →
      ((resetTable t nc).size + (n : Int)) * ((resetTable t nc).thDen : Int) <
        ((resetTable t nc).thNum : Int) * ((resetTable t nc).capacity : Int) := by
    intro n hn
    have h0 := htrig n hn
    unfold resetTable
    dsimp only
    push_cast at h0 ⊢
    rw [zero_add]
    exact h0
  obtain ⟨h1, h2, h3, _, _, h6, _, _, _⟩ :=
    insertAll_tracked fuel (collectOcc t) (resetTable t nc) t'
      (resetTable_wf t nc) hnodup hfresh htrig' h
  refine ⟨by rw [h1]; rfl, by rw [h2]; simp [resetTable], h3, ?_⟩
  intro p hp
  obtain ⟨j, hstop, hslot⟩ := h6 p hp
  exact get_of_found hstop hslot

theorem claim4_witness :
    (okOr c4t1 c4re).capacity = max 3 101 ∧
    (okOr c4t1 c4re).size = ((collectOcc c4t1).length : Int) ∧
    (okOr c4t1 c4re).collisions ≥ c4t1.collisions ∧
    ∀ p ∈ collectOcc c4t1, get (okOr c4t1 c4re) p.1 = .ok p.2 :=
  claim4_rehash_tracked 2 c4t1 (okOr c4t1 c4re) 101 ⟨rfl, by decide⟩
    (by decide)
    (by
      intro n hn
      have hl : (collectOcc c4t1).length = 4 := rfl
      have h1 : c4t1.thDen = 5 := rfl
      have h2 : c4t1.thNum = 3 := rfl
      rw [hl] at hn
      rw [h1, h2]
      push_cast
      omega)
    rfl

/-! ### Claim C7 -/

/-! ### Claim C8: bridges between collectOcc, occCount and membership -/

theorem slotAt_oob {t : Table K V} (hWf : Wf t) {x : Nat}
    (hx : t.capacity ≤ x) : slotAt t x = Slot.empty := by
  unfold slotAt
  exact getD_ge _ _ _ (by rw [hWf.1]; exact hx)

theorem length_filterMap_eq_countP {α β : Type} (f : α → Option β) :
    ∀ l : List α, (l.filterMap f).length =
      l.countP (fun a => (f a).isSome) := by
  intro l
  induction l with
  | nil => rfl
  | cons a tl ih =>
    rw [List.filterMap_cons, List.countP_cons]
    cases hf : f a with
    | none => simp [ih]
    | some b => simp [ih]

theorem countP_range_getD {α : Type} (p : α → Bool) (d : α) :
    ∀ l : List α,
      (List.range l.length).countP (fun x => p (l.getD x d)) =
        l.countP p := by
  intro l
  induction l with
  | nil => rfl
  | cons a tl ih =>
    rw [List.length_cons, List.range_succ_eq_map, List.countP_cons,
      List.countP_map, List.countP_cons]
    simp only [Function.comp_def, List.getD_cons_succ, List.getD_cons_zero]
    rw [ih]

theorem collectOcc_length {t : Table K V} (hWf : Wf t) :
    (collectOcc t).length = occCount t := by
  unfold collectOcc occCount
  rw [length_filterMap_eq_countP]
  have hcap : t.capacity = t.slots.length := hWf.1.symm
  rw [hcap, ← countP_range_getD isOcc Slot.empty t.slots]
  apply List.countP_congr
  intro x _
  unfold slotAt
  cases t.slots.getD x Slot.empty <;> simp [isOcc]

theorem mem_collectOcc {t : Table K V} (hWf : Wf t) {k : K} {v : Option V} :
    (k, v) ∈ collectOcc t ↔ ∃ x, slotAt t x = Slot.occ k v := by
  unfold collectOcc
  rw [List.mem_filterMap]
  constructor
  · rintro ⟨x, _, hx⟩
    refine ⟨x, ?_⟩
    cases hs : slotAt t x <;> rw [hs] at hx
    · cases hx
    · cases hx
    · injection hx with e
      injection e with e1 e2
      rw [e1, e2]
  · rintro ⟨x, hx⟩
    have hxlt : x < t.capacity := by
      by_contra hge
      rw [slotAt_oob hWf (Nat.le_of_not_lt hge)] at hx
      cases hx
    exact ⟨x, List.mem_range.mpr hxlt, by rw [hx]⟩

theorem collectOcc_keys_nodup {t : Table K V} (hWf : Wf t) (hU : Uniq t) :
    ((collectOcc t).map Prod.fst).Nodup := by
  unfold collectOcc
  rw [List.map_filterMap]
  apply List.Nodup.filterMap
  · intro a b c hc hc2
    rw [Option.mem_def] at hc hc2
    cases hsa : slotAt t a with
    | empty => rw [hsa] at hc; simp at hc
    | tomb => rw [hsa] at hc; simp at hc
    | occ ka va =>
      rw [hsa] at hc
      simp only [Option.map_some] at hc
      injection hc with hc
      dsimp only at hc
      cases hsb : slotAt t b with
      | empty => rw [hsb] at hc2; simp at hc2
      | tomb => rw [hsb] at hc2; simp at hc2
      | occ kb vb =>
        rw [hsb] at hc2
        simp only [Option.map_some] at hc2
        injection hc2 with hc2
        dsimp only at hc2
        rw [hc] at hsa
        rw [hc2] at hsb
        exact hU a b c va vb hsa hsb
  · exact List.nodup_range _

/-! ### Claim C8: invariant preservation and content tracking -/

theorem foundAt_value_eq {t : Table K V} {k : K} {v1 v2 : Option V}
    (h1 : FoundAt t k v1) (h2 : FoundAt t k v2) : v1 = v2 := by
  obtain ⟨j1, hs1, hl1⟩ := h1
  obtain ⟨j2, hs2, hl2⟩ := h2
  rw [hs1] at hs2
  injection hs2 with he
  rw [← he] at hl2
  rw [hl1] at hl2
  injection hl2 with e1 e2

theorem walk_case_split {t u : Table K V} {k : K} {v : Option V}
    (hInv : Inv t) (h : insertWalk t k v = .ok u) :
    ∃ tgt j, tgt < t.capacity ∧
      u.slots = t.slots.set tgt (Slot.occ k v) ∧
      SameCfg u t ∧ stopIdx u k = some j ∧ probeIdx u k j = tgt ∧
      (∀ (y : Nat) (w : Option V), slotAt t y = Slot.occ k w → y = tgt) ∧
      (((∃ w, slotAt t tgt = Slot.occ k w) ∧ u.size = t.size) ∨
        ((slotAt t tgt = Slot.empty ∨ slotAt t tgt = Slot.tomb) ∧
          u.size = t.size + 1)) := by
  obtain ⟨hWf, hU, hA, _⟩ := hInv
  obtain ⟨tgt, j, htgt, hslots, hcfg, _, hstopu, hpru, hdisj, i0, hstop0, hclause⟩ :=
    insertWalk_spec hWf h
  refine ⟨tgt, j, htgt, hslots, hcfg, hstopu, hpru, ?_, hdisj⟩
  intro y w hy
  rcases hdisj with ⟨⟨w2, hw2⟩, _⟩ | ⟨hw2, _⟩
  · exact hU y tgt k w w2 hy hw2
  · exfalso
    obtain ⟨j0, hstopj0, hslotj0⟩ := hA y k w hy
    rw [hstop0] at hstopj0
    injection hstopj0 with he
    rw [← he] at hslotj0
    rcases hclause with hcl | hcl
    · rw [hcl] at hslotj0
      rcases hw2 with hw2 | hw2 <;> rw [hw2] at hslotj0 <;> cases hslotj0
    · rw [hcl] at hslotj0
      cases hslotj0

theorem inv_after_walk {t u : Table K V} {k : K} {v : Option V}
    (hInv : Inv t) (h : insertWalk t k v = .ok u) : Inv u := by
  obtain ⟨hWf, hU, hA, hS⟩ := hInv
  obtain ⟨tgt, j, htgt, hslots, hcfg, hstopu, hpru, honly, hdisj⟩ :=
    walk_case_split ⟨hWf, hU, hA, hS⟩ h
  have hlen : tgt < t.slots.length := by rw [hWf.1]; exact htgt
  obtain ⟨hsetEq, hsetNe⟩ := slotAt_of_set hslots hlen
  refine ⟨insertWalk_wf hWf h, ?_, ?_, insertWalk_sizeInv hWf hS h⟩
  · intro x y k1 vx vy hx hy
    by_cases hxt : x = tgt <;> by_cases hyt : y = tgt
    · rw [hxt, hyt]
    · exfalso
      rw [hxt, hsetEq] at hx
      injection hx with e1 _
      rw [hsetNe y hyt] at hy
      rw [← e1] at hy
      exact hyt (honly y vy hy)
    · exfalso
      rw [hyt, hsetEq] at hy
      injection hy with e1 _
      rw [hsetNe x hxt] at hx
      rw [← e1] at hx
      exact hxt (honly x vx hx)
    · rw [hsetNe x hxt] at hx
      rw [hsetNe y hyt] at hy
      exact hU x y k1 vx vy hx hy
  · intro x k1 v1 hx
    by_cases hxt : x = tgt
    · rw [hxt, hsetEq] at hx
      injection hx with e1 e2
      rw [← e1, ← e2]
      exact ⟨j, hstopu, by rw [hpru]; exact hsetEq⟩
    · rw [hsetNe x hxt] at hx
      by_cases hk : k1 = k
      · exfalso
        rw [hk] at hx
        exact hxt (honly x v1 hx)
      · obtain ⟨i1, hst1, hsl1⟩ := hA x k1 v1 hx
        obtain ⟨hstu, hslu, _⟩ :=
          insertWalk_preserves_stop hWf h hk hst1 hsl1
        exact ⟨i1, hstu, hslu⟩

theorem uniq_after_tomb {t u : Table K V} {x1 : Nat}
    (hU : Uniq t) (hlen : x1 < t.slots.length)
    (hslots : u.slots = t.slots.set x1 Slot.tomb) : Uniq u := by
  obtain ⟨hsetEq, hsetNe⟩ := slotAt_of_set hslots hlen
  intro x y k1 vx vy hx hy
  by_cases hxt : x = x1
  · rw [hxt, hsetEq] at hx; cases hx
  · by_cases hyt : y = x1
    · rw [hyt, hsetEq] at hy; cases hy
    · rw [hsetNe x hxt] at hx
      rw [hsetNe y hyt] at hy
      exact hU x y k1 vx vy hx hy

theorem get_none_of_absent {t : Table K V} {k : K}
    (habs : ∀ (x : Nat) (w : Option V), slotAt t x ≠ Slot.occ k w)
    (hh : get t k ≠ .hang) : get t k = .ok none := by
  cases hstop : stopIdx t k with
  | none =>
    exfalso
    apply hh
    unfold get
    rw [hstop]
  | some i =>
    unfold get
    rw [hstop]
    dsimp only
    obtain ⟨hstopi, _, _⟩ := stopIdx_eq_some hstop
    rcases stopAt_true_elim hstopi with he | ⟨w, hw⟩
    · rw [he]
    · exact absurd hw (habs _ w)

theorem sameMap_symm {t1 t2 : Table K V} (h : SameMap t1 t2) :
    SameMap t2 t1 :=
  fun k v => (h k v).symm

theorem sameMap_trans {t1 t2 t3 : Table K V} (h1 : SameMap t1 t2)
    (h2 : SameMap t2 t3) : SameMap t1 t3 :=
  fun k v => (h1 k v).trans (h2 k v)

theorem sameMap_occ_dir {t1 t2 u1 u2 : Table K V} {k : K} {v : Option V}
    {x1 x2 : Nat}
    (hsm : SameMap t1 t2)
    (hs1 : u1.slots = t1.slots.set x1 (Slot.occ k v))
    (hs2 : u2.slots = t2.slots.set x2 (Slot.occ k v))
    (hl1 : x1 < t1.slots.length) (hl2 : x2 < t2.slots.length)
    (honly1 : ∀ (y : Nat) (w : Option V), slotAt t1 y = Slot.occ k w → y = x1)
    (hx2old : slotAt t2 x2 = Slot.empty ∨ slotAt t2 x2 = Slot.tomb ∨
      ∃ w, slotAt t2 x2 = Slot.occ k w)
    (k1 : K) (v1 : Option V) :
    (∃ x, slotAt u1 x = Slot.occ k1 v1) →
      ∃ y, slotAt u2 y = Slot.occ k1 v1 := by
  obtain ⟨hEq1, hNe1⟩ := slotAt_of_set hs1 hl1
  obtain ⟨hEq2, hNe2⟩ := slotAt_of_set hs2 hl2
  rintro ⟨x, hx⟩
  by_cases hxt : x = x1
  · rw [hxt, hEq1] at hx
    injection hx with e1 e2
    exact ⟨x2, by rw [hEq2, e1, e2]⟩
  · rw [hNe1 x hxt] at hx
    by_cases hk : k1 = k
    · exfalso
      rw [hk] at hx
      exact hxt (honly1 x v1 hx)
    · obtain ⟨y, hy⟩ := (hsm k1 v1).mp ⟨x, hx⟩
      by_cases hyt : y = x2
      · exfalso
        rw [hyt] at hy
        rcases hx2old with h2 | h2 | ⟨w, h2⟩ <;> rw [h2] at hy
        · cases hy
        · cases hy
        · injection hy with e _
          exact hk e.symm
      · exact ⟨y, by rw [hNe2 y hyt]; exact hy⟩

theorem sameMap_tomb_dir {t1 t2 u1 u2 : Table K V} {k : K} {x1 x2 : Nat}
    (hsm : SameMap t1 t2)
    (hs1 : u1.slots = t1.slots.set x1 Slot.tomb)
    (hs2 : u2.slots = t2.slots.set x2 Slot.tomb)
    (hl1 : x1 < t1.slots.length) (hl2 : x2 < t2.slots.length)
    (honly1 : ∀ (y : Nat) (w : Option V), slotAt t1 y = Slot.occ k w → y = x1)
    (hx2old : ∃ w, slotAt t2 x2 = Slot.occ k w)
    (k1 : K) (v1 : Option V) :
    (∃ x, slotAt u1 x = Slot.occ k1 v1) →
      ∃ y, slotAt u2 y = Slot.occ k1 v1 := by
  obtain ⟨hEq1, hNe1⟩ := slotAt_of_set hs1 hl1
  obtain ⟨hEq2, hNe2⟩ := slotAt_of_set hs2 hl2
  rintro ⟨x, hx⟩
  by_cases hxt : x = x1
  · rw [hxt, hEq1] at hx; cases hx
  · rw [hNe1 x hxt] at hx
    have hk : k1 ≠ k := by
      intro he
      rw [he] at hx
      exact hxt (honly1 x v1 hx)
    obtain ⟨y, hy⟩ := (hsm k1 v1).mp ⟨x, hx⟩
    by_cases hyt : y = x2
    · exfalso
      obtain ⟨w, h2⟩ := hx2old
      rw [hyt, h2] at hy
      injection hy with e _
      exact hk e.symm
    · exact ⟨y, by rw [hNe2 y hyt]; exact hy⟩

/-! ### Claim C8: the bisimulation steps -/

theorem bisim_get {t1 t2 : Table K V} (hB : Bisim t1 t2) (k : K)
    (hh1 : get t1 k ≠ .hang) (hh2 : get t2 k ≠ .hang) :
    get t1 k = get t2 k := by
  obtain ⟨⟨hWf1, hU1, hA1, _⟩, ⟨hWf2, hU2, hA2, _⟩, _, _, _, _, _, hsm⟩ := hB
  by_cases hp : ∃ x w, slotAt t1 x = Slot.occ k w
  · obtain ⟨x, w, hx⟩ := hp
    obtain ⟨j1, hs1, hl1⟩ := hA1 x k w hx
    obtain ⟨y, hy⟩ := (hsm k w).mp ⟨x, hx⟩
    obtain ⟨j2, hs2, hl2⟩ := hA2 y k w hy
    rw [get_of_found hs1 hl1, get_of_found hs2 hl2]
  · have habs1 : ∀ (x : Nat) (w : Option V), slotAt t1 x ≠ Slot.occ k w := by
      intro x w hx
      exact hp ⟨x, w, hx⟩
    have habs2 : ∀ (y : Nat) (w : Option V), slotAt t2 y ≠ Slot.occ k w := by
      intro y w hy
      obtain ⟨x, hx⟩ := (hsm k w).mpr ⟨y, hy⟩
      exact hp ⟨x, w, hx⟩
    rw [get_none_of_absent habs1 hh1, get_none_of_absent habs2 hh2]

theorem bisim_remove {t1 t2 u1 u2 : Table K V} {k : K} {b1 b2 : Bool}
    (hB : Bisim t1 t2) (h1 : remove t1 k = .ok (u1, b1))
    (h2 : remove t2 k = .ok (u2, b2)) : b1 = b2 ∧ Bisim u1 u2 := by
  obtain ⟨⟨hWf1, hU1, hA1, hS1⟩, ⟨hWf2, hU2, hA2, hS2⟩, hcap, hsize,
    hthN, hthD, hhash, hsm⟩ := hB
  rcases remove_spec h1 with ⟨hb1, heq1, i1e, hst1e, hsl1e⟩ |
    ⟨hb1, i1, v1, hst1, hsl1, hslots1, hsz1, hcfg1, _⟩
  · have habs1 : ∀ (x : Nat) (w : Option V),
        slotAt t1 x ≠ Slot.occ k w := by
      intro x w hx
      obtain ⟨j, hs, hl⟩ := hA1 x k w hx
      rw [hst1e] at hs
      injection hs with he
      rw [← he] at hl
      rw [hsl1e] at hl
      cases hl
    rcases remove_spec h2 with ⟨hb2, heq2, _⟩ |
      ⟨hb2, i2, v2, hst2, hsl2, _⟩
    · rw [hb1, hb2]
      refine ⟨rfl, ?_⟩
      rw [heq1, heq2]
      exact ⟨⟨hWf1, hU1, hA1, hS1⟩, ⟨hWf2, hU2, hA2, hS2⟩, hcap,
        hsize, hthN, hthD, hhash, hsm⟩
    · exfalso
      obtain ⟨x, hx⟩ := (hsm k v2).mpr ⟨probeIdx t2 k i2, hsl2⟩
      exact habs1 x v2 hx
  · rcases remove_spec h2 with ⟨hb2, heq2, i2e, hst2e, hsl2e⟩ |
      ⟨hb2, i2, v2, hst2, hsl2, hslots2, hsz2, hcfg2, _⟩
    · exfalso
      obtain ⟨y, hy⟩ := (hsm k v1).mp ⟨probeIdx t1 k i1, hsl1⟩
      obtain ⟨j, hs, hl⟩ := hA2 y k v1 hy
      rw [hst2e] at hs
      injection hs with he
      rw [← he] at hl
      rw [hsl2e] at hl
      cases hl
    · rw [hb1, hb2]
      refine ⟨rfl, ?_⟩
      have hl1cap : probeIdx t1 k i1 < t1.capacity :=
        probeIdx_lt _ _ _ (by have := hWf1.2; omega)
      have hl2cap : probeIdx t2 k i2 < t2.capacity :=
        probeIdx_lt _ _ _ (by have := hWf2.2; omega)
      have hlen1 : probeIdx t1 k i1 < t1.slots.length := by
        rw [hWf1.1]; exact hl1cap
      have hlen2 : probeIdx t2 k i2 < t2.slots.length := by
        rw [hWf2.1]; exact hl2cap
      have honly1 : ∀ (y : Nat) (w : Option V),
          slotAt t1 y = Slot.occ k w → y = probeIdx t1 k i1 :=
        fun y w hy => hU1 y _ k w v1 hy hsl1
      have honly2 : ∀ (y : Nat) (w : Option V),
          slotAt t2 y = Slot.occ k w → y = probeIdx t2 k i2 :=
        fun y w hy => hU2 y _ k w v2 hy hsl2
      obtain ⟨hsetEq1, hsetNe1⟩ := slotAt_of_set hslots1 hlen1
      obtain ⟨hsetEq2, hsetNe2⟩ := slotAt_of_set hslots2 hlen2
      obtain ⟨c1cap, c1h, _, _, _, c1N, c1D⟩ := hcfg1
      obtain ⟨c2cap, c2h, _, _, _, c2N, c2D⟩ := hcfg2
      refine ⟨?_, ?_, ?_, ?_, ?_, ?_, ?_, ?_⟩
      · refine ⟨remove_wf hWf1 h1, uniq_after_tomb hU1 hlen1 hslots1, ?_,
          remove_sizeInv hWf1 hS1 h1⟩
        intro x k1 w hx
        by_cases hxt : x = probeIdx t1 k i1
        · rw [hxt, hsetEq1] at hx; cases hx
        · rw [hsetNe1 x hxt] at hx
          by_cases hk : k1 = k
          · exfalso
            rw [hk] at hx
            exact hxt (honly1 x w hx)
          · obtain ⟨j0, hs0, hl0⟩ := hA1 x k1 w hx
            obtain ⟨hsn, hln⟩ := remove_preserves_stop hWf1 h1 hk hs0 hl0
            exact ⟨j0, hsn, hln⟩
      · refine ⟨remove_wf hWf2 h2, uniq_after_tomb hU2 hlen2 hslots2, ?_,
          remove_sizeInv hWf2 hS2 h2⟩
        intro x k1 w hx
        by_cases hxt : x = probeIdx t2 k i2
        · rw [hxt, hsetEq2] at hx; cases hx
        · rw [hsetNe2 x hxt] at hx
          by_cases hk : k1 = k
          · exfalso
            rw [hk] at hx
            exact hxt (honly2 x w hx)
          · obtain ⟨j0, hs0, hl0⟩ := hA2 x k1 w hx
            obtain ⟨hsn, hln⟩ := remove_preserves_stop hWf2 h2 hk hs0 hl0
            exact ⟨j0, hsn, hln⟩
      · rw [c1cap, c2cap, hcap]
      · rw [hsz1, hsz2, hsize]
      · rw [c1N, c2N, hthN]
      · rw [c1D, c2D, hthD]
      · rw [c1h, c2h, hhash]
      · intro k1 w
        constructor
        · exact sameMap_tomb_dir hsm hslots1 hslots2 hlen1 hlen2 honly1
            ⟨v2, hsl2⟩ k1 w
        · exact sameMap_tomb_dir (sameMap_symm hsm) hslots2 hslots1 hlen2
            hlen1 honly2 ⟨v1, hsl1⟩ k1 w

theorem bisim_walk {t1 t2 u1 u2 : Table K V} {k : K} {v : Option V}
    (hB : Bisim t1 t2) (h1 : insertWalk t1 k v = .ok u1)
    (h2 : insertWalk t2 k v = .ok u2) : Bisim u1 u2 := by
  obtain ⟨hI1, hI2, hcap, hsize, hthN, hthD, hhash, hsm⟩ := hB
  obtain ⟨tgt1, j1, htgt1, hslots1, hcfg1, hst1, hpr1, honly1, hdisj1⟩ :=
    walk_case_split hI1 h1
  obtain ⟨tgt2, j2, htgt2, hslots2, hcfg2, hst2, hpr2, honly2, hdisj2⟩ :=
    walk_case_split hI2 h2
  have hWf1 : Wf t1 := hI1.1
  have hWf2 : Wf t2 := hI2.1
  have hlen1 : tgt1 < t1.slots.length := by rw [hWf1.1]; exact htgt1
  have hlen2 : tgt2 < t2.slots.length := by rw [hWf2.1]; exact htgt2
  obtain ⟨c1cap, c1h, _, _, _, c1N, c1D⟩ := hcfg1
  obtain ⟨c2cap, c2h, _, _, _, c2N, c2D⟩ := hcfg2
  have hold1 : slotAt t1 tgt1 = Slot.empty ∨ slotAt t1 tgt1 = Slot.tomb ∨
      ∃ w, slotAt t1 tgt1 = Slot.occ k w := by
    rcases hdisj1 with ⟨⟨w1, hw1⟩, _⟩ | ⟨hw1 | hw1, _⟩
    · exact Or.inr (Or.inr ⟨w1, hw1⟩)
    · exact Or.inl hw1
    · exact Or.inr (Or.inl hw1)
  have hold2 : slotAt t2 tgt2 = Slot.empty ∨ slotAt t2 tgt2 = Slot.tomb ∨
      ∃ w, slotAt t2 tgt2 = Slot.occ k w := by
    rcases hdisj2 with ⟨⟨w2, hw2⟩, _⟩ | ⟨hw2 | hw2, _⟩
    · exact Or.inr (Or.inr ⟨w2, hw2⟩)
    · exact Or.inl hw2
    · exact Or.inr (Or.inl hw2)
  refine ⟨inv_after_walk hI1 h1, inv_after_walk hI2 h2, ?_, ?_, ?_, ?_, ?_, ?_⟩
  · rw [c1cap, c2cap, hcap]
  · rcases hdisj1 with ⟨⟨w1, hw1⟩, hsz1⟩ | ⟨hw1, hsz1⟩ <;>
      rcases hdisj2 with ⟨⟨w2, hw2⟩, hsz2⟩ | ⟨hw2, hsz2⟩
    · rw [hsz1, hsz2, hsize]
    · exfalso
      obtain ⟨y, hy⟩ := (hsm k w1).mp ⟨tgt1, hw1⟩
      have hyt := honly2 y w1 hy
      rw [hyt] at hy
      rcases hw2 with hw2 | hw2 <;> rw [hw2] at hy <;> cases hy
    · exfalso
      obtain ⟨x, hx⟩ := (hsm k w2).mpr ⟨tgt2, hw2⟩
      have hxt := honly1 x w2 hx
      rw [hxt] at hx
      rcases hw1 with hw1 | hw1 <;> rw [hw1] at hx <;> cases hx
    · rw [hsz1, hsz2, hsize]
  · rw [c1N, c2N, hthN]
  · rw [c1D, c2D, hthD]
  · rw [c1h, c2h, hhash]
  · intro k1 w
    constructor
    · exact sameMap_occ_dir hsm hslots1 hslots2 hlen1 hlen2 honly1
        hold2 k1 w
    · exact sameMap_occ_dir (sameMap_symm hsm) hslots2 hslots1 hlen2
        hlen1 honly2 hold1 k1 w

theorem rehash_tracked_side (fuel : Nat) {t r : Table K V}
    (hWf : Wf t) (hU : Uniq t) (hA : AllFound t)
    (hS : t.size = (occCount t : Int))
    (hth0 : 0 < t.thNum) (hth2 : t.thDen ≤ 2 * t.thNum)
    (h : rehashF fuel t (2 * t.capacity + 1) = .ok r) :
    Inv r ∧ r.capacity = 2 * t.capacity + 1 ∧ r.size = t.size ∧
      SameFns r t ∧ SameMap r t := by
  have hSz := rehashF_sizeInv fuel h
  unfold rehashF at h
  have h3 : 3 ≤ t.capacity := hWf.2
  have hmax : max 3 (2 * t.capacity + 1) = 2 * t.capacity + 1 :=
    Nat.max_eq_right (by omega)
  have hlenle : (collectOcc t).length ≤ t.capacity := by
    rw [collectOcc_length hWf]
    unfold occCount
    calc t.slots.countP isOcc ≤ t.slots.length := List.countP_le_length _
    _ = t.capacity := hWf.1
  have hfresh : ∀ p ∈ collectOcc t,
      FreshIn (resetTable t (2 * t.capacity + 1)) p.1 := by
    intro p _ x w
    rw [slotAt_reset]
    intro hcon
    cases hcon
  have htrig' : ∀ n : Nat, n < (collectOcc t).length →
      ((resetTable t (2 * t.capacity + 1)).size + (n : Int)) *
          ((resetTable t (2 * t.capacity + 1)).thDen : Int) <
        ((resetTable t (2 * t.capacity + 1)).thNum : Int) *
          ((resetTable t (2 * t.capacity + 1)).capacity : Int) := by
    intro n hn
    unfold resetTable
    dsimp only
    rw [hmax, zero_add]
    have hncap : (n : Int) ≤ (t.capacity : Int) - 1 := by
      have := lt_of_lt_of_le hn hlenle
      omega
    have hd2 : (t.thDen : Int) ≤ 2 * (t.thNum : Int) := by exact_mod_cast hth2
    have hn0 : (0 : Int) ≤ (n : Int) := Int.natCast_nonneg n
    have ht0 : (1 : Int) ≤ (t.thNum : Int) := by exact_mod_cast hth0
    have hstep1 : (n : Int) * t.thDen ≤ (n : Int) * (2 * t.thNum) :=
      mul_le_mul_of_nonneg_left hd2 hn0
    have hstep2 : (n : Int) * (2 * t.thNum) ≤
        ((t.capacity : Int) - 1) * (2 * t.thNum) :=
      mul_le_mul_of_nonneg_right hncap (by linarith)
    push_cast
    nlinarith [hstep1, hstep2]
  obtain ⟨tr1, tr2, tr3, tr4, tr5, tr6, tr7, tr8, tr9⟩ :=
    insertAll_tracked fuel (collectOcc t) (resetTable t (2 * t.capacity + 1))
      r (resetTable_wf t _) (collectOcc_keys_nodup hWf hU) hfresh htrig' h
  have hUr : Uniq r := by
    apply tr9
    intro x y k1 vx vy hx hy
    rw [slotAt_reset] at hx
    cases hx
  have hAr : AllFound r := by
    intro x k1 w hx
    rcases tr8 x k1 w hx with hmem | hres
    · exact tr6 (k1, w) hmem
    · rw [slotAt_reset] at hres
      cases hres
  have hMapR : SameMap r t := by
    intro k1 w
    constructor
    · rintro ⟨x, hx⟩
      rcases tr8 x k1 w hx with hmem | hres
      · exact (mem_collectOcc hWf).mp hmem
      · rw [slotAt_reset] at hres
        cases hres
    · rintro ⟨y, hy⟩
      obtain ⟨j, hs, hl⟩ :=
        tr6 (k1, w) ((mem_collectOcc hWf).mpr ⟨y, hy⟩)
      exact ⟨probeIdx r k1 j, hl⟩
  refine ⟨⟨tr5, hUr, hAr, hSz⟩, ?_, ?_, sameFns_trans tr4 (resetTable_fns t _),
    hMapR⟩
  · rw [tr1]
    unfold resetTable
    dsimp only
    exact hmax
  · rw [tr2]
    unfold resetTable
    dsimp only
    rw [zero_add, collectOcc_length hWf, ← hS]

theorem bisim_rehash (fuel : Nat) {t1 t2 r1 r2 : Table K V}
    (hB : Bisim t1 t2) (hth0 : 0 < t1.thNum)
    (hth2 : t1.thDen ≤ 2 * t1.thNum)
    (h1 : rehashF fuel t1 (2 * t1.capacity + 1) = .ok r1)
    (h2 : rehashF fuel t2 (2 * t2.capacity + 1) = .ok r2) :
    Bisim r1 r2 := by
  obtain ⟨⟨hWf1, hU1, hA1, hS1⟩, ⟨hWf2, hU2, hA2, hS2⟩, hcap, hsize,
    hthN, hthD, hhash, hsm⟩ := hB
  obtain ⟨hI1, hc1, hs1, hf1, hm1⟩ :=
    rehash_tracked_side fuel hWf1 hU1 hA1 hS1 hth0 hth2 h1
  obtain ⟨hI2, hc2, hs2, hf2, hm2⟩ :=
    rehash_tracked_side fuel hWf2 hU2 hA2 hS2
      (by rw [← hthN]; exact hth0) (by rw [← hthN, ← hthD]; exact hth2) h2
  obtain ⟨f1h, _, _, _, f1N, f1D⟩ := hf1
  obtain ⟨f2h, _, _, _, f2N, f2D⟩ := hf2
  refine ⟨hI1, hI2, ?_, ?_, ?_, ?_, ?_, ?_⟩
  · rw [hc1, hc2, hcap]
  · rw [hs1, hs2, hsize]
  · rw [f1N, f2N, hthN]
  · rw [f1D, f2D, hthD]
  · rw [f1h, f2h, hhash]
  · exact sameMap_trans hm1 (sameMap_trans hsm (sameMap_symm hm2))

theorem bisim_insertF : ∀ (fuel : Nat) {t1 t2 u1 u2 : Table K V} {k : K}
    {v : Option V}, Bisim t1 t2 → 0 < t1.thNum →
    t1.thDen ≤ 2 * t1.thNum → insertF fuel t1 k v = .ok u1 →
    insertF fuel t2 k v = .ok u2 → Bisim u1 u2 := by
  intro fuel
  cases fuel with
  | zero =>
    intro t1 t2 u1 u2 k v _ _ _ h1 _
    rw [insertF] at h1
    cases h1
  | succ n =>
    intro t1 t2 u1 u2 k v hB hth0 hth2 h1 h2
    have htr : loadTrigger t1 = loadTrigger t2 := by
      obtain ⟨_, _, hcap, hsize, hthN, hthD, _, _⟩ := hB
      unfold loadTrigger
      rw [hcap, hsize, hthN, hthD]
    rw [insertF_succ] at h1 h2
    rw [← htr] at h2
    by_cases hlt : loadTrigger t1
    · rw [if_pos hlt] at h1 h2
      cases hre1 : rehashF n t1 (2 * t1.capacity + 1) with
      | hang => rw [hre1] at h1; cases h1
      | ok r1 =>
        cases hre2 : rehashF n t2 (2 * t2.capacity + 1) with
        | hang => rw [hre2] at h2; cases h2
        | ok r2 =>
          rw [hre1] at h1
          rw [hre2] at h2
          exact bisim_walk (bisim_rehash n hB hth0 hth2 hre1 hre2) h1 h2
    · rw [if_neg hlt] at h1 h2
      exact bisim_walk hB h1 h2

theorem inv_new (cap : Nat) (hf shf : Option (K → Nat)) (mode : Mode)
    (thN thD : Nat) (ph : K → Nat) :
    Inv (new K V cap hf shf mode thN thD ph) := by
  refine ⟨new_wf cap hf shf mode thN thD ph, ?_, ?_, ?_⟩
  · intro x y k1 vx vy hx _
    rw [slotAt_new] at hx
    cases hx
  · intro x k1 w hx
    rw [slotAt_new] at hx
    cases hx
  · show (new K V cap hf shf mode thN thD ph).size = _
    unfold new occCount
    dsimp only
    rw [countP_replicate_false _ _ rfl]
    rfl

/-- C8 counterexample: with the same primary hash and the same two
inserts, the linear table and the double table (step 2, capacity 4) end
with identical slot arrays, yet `get` on the absent key 2 (hashing to 0)
returns None in linear mode but loops forever in double mode, whose
probe orbit {0, 2} never reaches an empty slot.  The two modes therefore
do not produce identical results for every get. -/
theorem claim8_counterexample :
    insertAll 1 c8lin [(0, some 10), (1, some 11)] = .ok c8lin2 ∧
    insertAll 1 c8dbl [(0, some 10), (1, some 11)] = .ok c8dbl2 ∧
    c8lin2.slots = c8dbl2.slots ∧
    get c8lin2 2 = .ok none ∧
    get c8dbl2 2 = .hang ∧
    get c8lin2 2 ≠ get c8dbl2 2 :=
  ⟨rfl, rfl, rfl, rfl, rfl, by decide⟩

/-- C8 amended: a linear-mode table and a double-mode table with the
same primary hash, capacity, size, threshold and key-value contents
(each satisfying the table invariant, with threshold at least 1/2 as
the default 0.6 is) stay equivalent under any sequence of operations
*that terminate on both sides*: get returns the same value, remove
returns the same boolean, and insert and remove preserve the relation
(same contents, capacity and size), so the two modes differ at most in
their collisions counters — and in which operations hang, as the
counterexample shows. -/
theorem claim8_modes_equivalent (t1 t2 : Table K V)
    (hm1 : t1.mode = Mode.linear) (hm2 : t2.mode = Mode.double)
    (hB : Bisim t1 t2) (hth0 : 0 < t1.thNum)
    (hth2 : t1.thDen ≤ 2 * t1.thNum) :
    (∀ k, get t1 k ≠ .hang → get t2 k ≠ .hang → get t1 k = get t2 k) ∧
    (∀ (k : K) (u1 u2 : Table K V) (b1 b2 : Bool),
      remove t1 k = .ok (u1, b1) → remove t2 k = .ok (u2, b2) →
      b1 = b2 ∧ Bisim u1 u2) ∧
    (∀ (fuel : Nat) (k : K) (v : Option V) (u1 u2 : Table K V),
      insertF fuel t1 k v = .ok u1 → insertF fuel t2 k v = .ok u2 →
      Bisim u1 u2) :=
  ⟨fun k => bisim_get hB k,
   fun _k u1 u2 b1 b2 h1 h2 => bisim_remove hB h1 h2,
   fun fuel _k _v u1 u2 h1 h2 => bisim_insertF fuel hB hth0 hth2 h1 h2⟩

theorem claim8_witness :
    get c8w1 9 = get c8w2 9 ∧ Bisim c8w1a c8w2a := by
  have hB : Bisim c8w1 c8w2 := by
    refine ⟨inv_new 4 (some hashC8) none Mode.linear 3 5 id,
      inv_new 4 (some hashC8) (some fun _ => 2) Mode.double 3 5 id,
      rfl, rfl, rfl, rfl, rfl, ?_⟩
    intro k v
    constructor
    · rintro ⟨x, hx⟩
      unfold c8w1 at hx
      rw [slotAt_new] at hx
      cases hx
    · rintro ⟨y, hy⟩
      unfold c8w2 at hy
      rw [slotAt_new] at hy
      cases hy
  have hall := claim8_modes_equivalent c8w1 c8w2 rfl rfl hB
    (by decide) (by decide)
  refine ⟨hall.1 9 ?_ ?_, hall.2.2 1 0 (some 10) c8w1a c8w2a rfl rfl⟩
  · intro hcon
    rw [show get c8w1 9 = Res.ok none from rfl] at hcon
    cases hcon
  · intro hcon
    rw [show get c8w2 9 = Res.ok none from rfl] at hcon
    cases hcon

/-- C7: the full concrete scenario at capacity 7 in linear mode with
hash = sum of character codes: "a" and "h" both hash to 6 mod 7; the
second insert wraps to index 0 with collisions 1; both keys are
retrievable; removing "a" tombstones index 6, get "a" then reports
absence and get "h" still returns 2, walking past the tombstone. -/
theorem claim7_concrete_scenario :
    simple_hash "a" % 7 = 6 ∧ simple_hash "h" % 7 = 6 ∧
    insertF 1 c7t0 "a" (some 1) = .ok c7t1 ∧
    insertF 1 c7t1 "h" (some 2) = .ok c7t2 ∧
    slotAt c7t2 0 = Slot.occ "h" (some 2) ∧
    slotAt c7t2 6 = Slot.occ "a" (some 1) ∧
    c7t2.collisions = 1 ∧
    get c7t2 "a" = .ok (some 1) ∧
    get c7t2 "h" = .ok (some 2) ∧
    remove c7t2 "a" = .ok (c7t3, true) ∧
    get c7t3 "a" = .ok none ∧
    slotAt c7t3 6 = Slot.tomb ∧
    get c7t3 "h" = .ok (some 2) :=
  ⟨rfl, rfl, rfl, rfl, rfl, rfl, rfl, rfl, rfl, rfl, rfl, rfl, rfl⟩

end OpenAddr
